import Mathlib

/-!
Verification of the sparse-times-dense multiplication kernels of
MatrixExtra (src/matmul.cpp) against its natural-language specification.

Modelling conventions used throughout this development:

* Machine floating-point numbers are modelled by rationals; the structural
  claims under scrutiny (which elements are combined, which positions are
  written, in which order terms are accumulated) are precision-independent.
* Flat C buffers are modelled as total functions from Nat (byte offsets
  divided by the element width, i.e. element offsets) to the element type;
  a pointer with offset becomes an explicit offset argument.
* CSR structures are the literal triples (indptr, indices, values) as lists;
  out-of-range reads use List.getD, which never occur under the validity
  preconditions of the claims.
* The R missing sentinels (NA_INTEGER for dense integer data, NA_REAL for
  the double accumulator, whose propagation through IEEE addition is
  absorbing) are modelled by Option: none is the missing value and addition
  is absorbing in none, exactly mirroring NaN absorption in the source.
* The BLAS routine daxpy, which is linked from an external library and is
  not part of this repository, computes y[i*incy] += alpha * x[i*incx] for
  i in [0, n); it is modelled by the same reference loop as the local
  saxpy replacement defined in src/matmul.cpp.
-/

/-! ## Accumulate-multiply primitives (src/matmul.cpp lines 17-68) -/

/-- Fast path of the local saxpy replacement (lines 23-27): when both
strides are one and alpha is one the loop degenerates to a pure
elementwise add. -/
def saxpyFast (n : ℕ) (x y : ℕ → ℚ) : ℕ → ℚ :=
  (List.range n).foldl (fun acc ix => Function.update acc ix (acc ix + x ix)) y

/-- General strided path of the local saxpy replacement (lines 28-32):
y[ix*incy] += alpha * x[ix*incx] for ix in [0, n). -/
def saxpyStrided (n : ℕ) (alpha : ℚ) (x : ℕ → ℚ) (incx : ℕ) (y : ℕ → ℚ)
    (incy : ℕ) : ℕ → ℚ :=
  (List.range n).foldl
    (fun acc ix =>
      Function.update acc (ix * incy) (acc (ix * incy) + alpha * x (ix * incx)))
    y

/-- The saxpy primitive of src/matmul.cpp lines 17-33: the special-cased
branch is taken exactly when incx == 1, incy == 1 and alpha == 1. -/
def saxpy (n : ℕ) (alpha : ℚ) (x : ℕ → ℚ) (incx : ℕ) (y : ℕ → ℚ)
    (incy : ℕ) : ℕ → ℚ :=
  if incx = 1 ∧ incy = 1 ∧ alpha = 1 then saxpyFast n x y
  else saxpyStrided n alpha x incx y incy

/-- Unit-stride axpy acting at explicit offsets into flat buffers: the form
in which every kernel of the file invokes axpy (x is the dense operand at
element offset xoff, y the destination at element offset yoff). -/
def axpy1 (n : ℕ) (alpha : ℚ) (x : ℕ → ℚ) (xoff : ℕ) (y : ℕ → ℚ)
    (yoff : ℕ) : ℕ → ℚ :=
  (List.range n).foldl
    (fun acc j =>
      Function.update acc (yoff + j) (acc (yoff + j) + alpha * x (xoff + j)))
    y

/-- Strided copy primitive (scopy / dcopy, lines 35-40 and 70-78):
y[ix*incy] = x[ix*incx] for ix in [0, n), with the destination taken at an
explicit element offset. -/
def tcopyAt (n : ℕ) (x : ℕ → ℚ) (incx : ℕ) (y : ℕ → ℚ) (yoff incy : ℕ) :
    ℕ → ℚ :=
  (List.range n).foldl
    (fun acc ix => Function.update acc (yoff + ix * incy) (x (ix * incx))) y

theorem axpy1_apply (n : ℕ) (alpha : ℚ) (x : ℕ → ℚ) (xoff : ℕ) (y : ℕ → ℚ)
    (yoff : ℕ) (i : ℕ) :
    axpy1 n alpha x xoff y yoff i =
      if yoff ≤ i ∧ i < yoff + n then y i + alpha * x (xoff + (i - yoff))
      else y i := by
  induction n with
  | zero =>
    rw [if_neg (by omega)]
    simp [axpy1]
  | succ m ih =>
    have hstep :
        axpy1 (m + 1) alpha x xoff y yoff =
          Function.update (axpy1 m alpha x xoff y yoff) (yoff + m)
            (axpy1 m alpha x xoff y yoff (yoff + m) + alpha * x (xoff + m)) := by
      simp [axpy1, List.range_succ]
    rw [hstep]
    by_cases hi : i = yoff + m
    · subst hi
      rw [Function.update_same]
      rw [ih]
      have hnot : ¬(yoff ≤ yoff + m ∧ yoff + m < yoff + m) := by omega
      rw [if_neg hnot]
      have hyes : yoff ≤ yoff + m ∧ yoff + m < yoff + (m + 1) := by omega
      rw [if_pos hyes]
      have harg : yoff + m - yoff = m := by omega
      rw [harg]
    · rw [Function.update_noteq hi, ih]
      by_cases hc : yoff ≤ i ∧ i < yoff + m
      · rw [if_pos hc, if_pos (by omega)]
      · rw [if_neg hc, if_neg (by omega)]

theorem tcopyAt_apply_of_notin (n : ℕ) (x : ℕ → ℚ) (incx : ℕ) (y : ℕ → ℚ)
    (yoff incy : ℕ) (i : ℕ) (h : ∀ ix, ix < n → i ≠ yoff + ix * incy) :
    tcopyAt n x incx y yoff incy i = y i := by
  induction n with
  | zero => simp [tcopyAt]
  | succ m ih =>
    have hstep :
        tcopyAt (m + 1) x incx y yoff incy =
          Function.update (tcopyAt m x incx y yoff incy) (yoff + m * incy)
            (x (m * incx)) := by
      simp [tcopyAt, List.range_succ]
    rw [hstep, Function.update_noteq (h m (Nat.lt_succ_self m)), ih]
    intro ix hix
    exact h ix (Nat.lt_succ_of_lt hix)

/-- C8. For unit strides and alpha equal to one, the special-cased pure
elementwise-add path of the saxpy primitive produces contents identical to
the general strided path computing y[ix*incy] += alpha * x[ix*incx]. -/
theorem saxpy_fast_path_eq_strided_path (n : ℕ) (x y : ℕ → ℚ) :
    saxpy n 1 x 1 y 1 = saxpyStrided n 1 x 1 y 1 := by
  have h1 : saxpy n 1 x 1 y 1 = saxpyFast n x y := by
    simp [saxpy]
  rw [h1, saxpyFast, saxpyStrided]
  apply List.foldl_ext
  intro acc b _
  simp

/-! ## Sparse-row times dense-row-major accumulation kernel, row-major
output (gemm_csr_drm_as_drm, src/matmul.cpp lines 118-142) -/

/-- Inner loop of gemm_csr_drm_as_drm for one sparse row (lines 138-140):
for every nonzero position col in [indptr[row], indptr[row+1]) add
values[col] times dense row indices[col] into the output row slice starting
at row*ldc. -/
def drmRowStep (n : ℕ) (indptr indices : List ℕ) (values : List ℚ)
    (B : ℕ → ℚ) (ldb ldc : ℕ) (acc : ℕ → ℚ) (row : ℕ) : ℕ → ℚ :=
  (List.range' (indptr.getD row 0)
      (indptr.getD (row + 1) 0 - indptr.getD row 0)).foldl
    (fun acc2 c =>
      axpy1 n (values.getD c 0) B (indices.getD c 0 * ldb) acc2 (row * ldc))
    acc

/-- The parallel-for over rows of gemm_csr_drm_as_drm, with the order in
which row updates hit memory made explicit: under OpenMP dynamic
scheduling the rows are processed in some interleaving, and since each
row's update touches only its own output slice, any interleaving is
memory-equivalent to some sequential order of the rows. -/
def gemmRowsDrm (n : ℕ) (indptr indices : List ℕ) (values : List ℚ)
    (B : ℕ → ℚ) (ldb ldc : ℕ) (order : List ℕ) (C : ℕ → ℚ) : ℕ → ℚ :=
  order.foldl (drmRowStep n indptr indices values B ldb ldc) C

/-- The kernel gemm_csr_drm_as_drm (lines 118-142): early return when there
are no rows or no stored nonzeros (line 128), otherwise the row loop over
rows 0..m-1. -/
def gemm_csr_drm_as_drm (m n : ℕ) (indptr indices : List ℕ)
    (values : List ℚ) (B : ℕ → ℚ) (ldb : ℕ) (C : ℕ → ℚ) (ldc : ℕ) :
    ℕ → ℚ :=
  if m = 0 ∨ indptr.getD 0 0 = indptr.getD m 0 then C
  else gemmRowsDrm n indptr indices values B ldb ldc (List.range m) C

/-- Contribution of sparse row r to output column j: the sum over the
stored nonzeros of that row of value times the matching dense element. -/
def drmRowSum (indptr indices : List ℕ) (values : List ℚ) (B : ℕ → ℚ)
    (ldb : ℕ) (r j : ℕ) : ℚ :=
  ((List.range' (indptr.getD r 0)
      (indptr.getD (r + 1) 0 - indptr.getD r 0)).map
    (fun c => values.getD c 0 * B (indices.getD c 0 * ldb + j))).sum

/-- Dense matrix represented by a CSR triple: entry (r, c) is the sum of
the stored values of row r whose column index equals c. -/
def csrToDense (indptr indices : List ℕ) (values : List ℚ) (r c : ℕ) : ℚ :=
  ((List.range' (indptr.getD r 0)
      (indptr.getD (r + 1) 0 - indptr.getD r 0)).map
    (fun p => if indices.getD p 0 = c then values.getD p 0 else 0)).sum

theorem colFold_apply (n : ℕ) (idxF : ℕ → ℕ) (vF : ℕ → ℚ) (B : ℕ → ℚ)
    (ldb off : ℕ) (L : List ℕ) (acc : ℕ → ℚ) (i : ℕ) :
    (L.foldl (fun a c => axpy1 n (vF c) B (idxF c * ldb) a off) acc) i =
      if off ≤ i ∧ i < off + n then
        acc i + (L.map (fun c => vF c * B (idxF c * ldb + (i - off)))).sum
      else acc i := by
  induction L generalizing acc with
  | nil =>
    by_cases hc : off ≤ i ∧ i < off + n
    · simp [if_pos hc]
    · simp [if_neg hc]
  | cons c L ih =>
    rw [List.foldl_cons, ih]
    by_cases hc : off ≤ i ∧ i < off + n
    · rw [if_pos hc, if_pos hc, axpy1_apply, if_pos hc]
      simp only [List.map_cons, List.sum_cons]
      ring
    · rw [if_neg hc, if_neg hc, axpy1_apply, if_neg hc]

theorem drmRowStep_apply (n : ℕ) (indptr indices : List ℕ)
    (values : List ℚ) (B : ℕ → ℚ) (ldb ldc : ℕ) (acc : ℕ → ℚ) (row i : ℕ) :
    drmRowStep n indptr indices values B ldb ldc acc row i =
      if row * ldc ≤ i ∧ i < row * ldc + n then
        acc i + drmRowSum indptr indices values B ldb row (i - row * ldc)
      else acc i := by
  rw [drmRowStep, colFold_apply, drmRowSum]

theorem gemmRowsDrm_apply (n : ℕ) (indptr indices : List ℕ)
    (values : List ℚ) (B : ℕ → ℚ) (ldb ldc : ℕ) (order : List ℕ)
    (C : ℕ → ℚ) (i : ℕ) :
    gemmRowsDrm n indptr indices values B ldb ldc order C i =
      C i +
        ((order.filter
            (fun r => decide (r * ldc ≤ i ∧ i < r * ldc + n))).map
          (fun r => drmRowSum indptr indices values B ldb r (i - r * ldc))).sum := by
  induction order generalizing C with
  | nil => simp [gemmRowsDrm]
  | cons r rest ih =>
    rw [gemmRowsDrm, List.foldl_cons]
    rw [show (rest.foldl (drmRowStep n indptr indices values B ldb ldc)
        (drmRowStep n indptr indices values B ldb ldc C r)) =
        gemmRowsDrm n indptr indices values B ldb ldc rest
          (drmRowStep n indptr indices values B ldb ldc C r) from rfl]
    rw [ih, drmRowStep_apply]
    by_cases hc : r * ldc ≤ i ∧ i < r * ldc + n
    · rw [if_pos hc, List.filter_cons_of_pos (by simpa using hc)]
      simp only [List.map_cons, List.sum_cons]
      ring
    · rw [if_neg hc, List.filter_cons_of_neg (by simpa using hc)]

theorem filter_range_eq_single (m r : ℕ) (hr : r < m) :
    (List.range m).filter (fun x => decide (x = r)) = [r] := by
  induction m with
  | zero => omega
  | succ t ih =>
    rw [List.range_succ, List.filter_append]
    by_cases hcase : r < t
    · rw [ih hcase]
      have : (List.filter (fun x => decide (x = r)) [t]) = [] := by
        simp
        omega
      rw [this, List.append_nil]
    · have hrt : r = t := by omega
      subst hrt
      have h1 : (List.range r).filter (fun x => decide (x = r)) = [] := by
        rw [List.filter_eq_nil_iff]
        intro a ha
        simp only [List.mem_range] at ha
        simp
        omega
      rw [h1]
      simp

theorem sum_map_group_by_index (L : List ℕ) (idxF : ℕ → ℕ) (vF : ℕ → ℚ)
    (Bf : ℕ → ℚ) (k : ℕ) (h : ∀ p ∈ L, idxF p < k) :
    (L.map (fun p => vF p * Bf (idxF p))).sum =
      ∑ c ∈ Finset.range k,
        (L.map (fun p => if idxF p = c then vF p else 0)).sum * Bf c := by
  induction L with
  | nil => simp
  | cons p L ih =>
    simp only [List.map_cons, List.sum_cons]
    rw [ih (fun q hq => h q (List.mem_cons_of_mem p hq))]
    have hsplit :
        ∑ c ∈ Finset.range k,
            ((if idxF p = c then vF p else 0) +
              (L.map (fun q => if idxF q = c then vF q else 0)).sum) * Bf c =
          (∑ c ∈ Finset.range k, (if idxF p = c then vF p else 0) * Bf c) +
            ∑ c ∈ Finset.range k,
              (L.map (fun q => if idxF q = c then vF q else 0)).sum * Bf c := by
      rw [← Finset.sum_add_distrib]
      apply Finset.sum_congr rfl
      intro c _
      ring
    rw [hsplit]
    have hone :
        ∑ c ∈ Finset.range k, (if idxF p = c then vF p else 0) * Bf c =
          vF p * Bf (idxF p) := by
      have hmem : idxF p ∈ Finset.range k :=
        Finset.mem_range.mpr (h p (List.mem_cons_self p L))
      rw [Finset.sum_eq_single (idxF p)]
      · rw [if_pos rfl]
      · intro b _ hb
        rw [if_neg (fun hh => hb hh.symm), zero_mul]
      · intro habs
        exact absurd hmem habs
    rw [hone]

theorem indptr_mono_le (indptr : List ℕ) (m : ℕ)
    (hmono : ∀ i, i < m → indptr.getD i 0 ≤ indptr.getD (i + 1) 0) :
    ∀ a b, a ≤ b → b ≤ m → indptr.getD a 0 ≤ indptr.getD b 0 := by
  intro a b hab hbm
  induction b with
  | zero =>
    have : a = 0 := by omega
    subst this
    exact le_refl _
  | succ t ih =>
    by_cases hat : a ≤ t
    · exact le_trans (ih hat (by omega)) (hmono t (by omega))
    · have : a = t + 1 := by omega
      subst this
      exact le_refl _

/-- C1. For every valid CSR matrix (monotone indptr, in-bounds indices)
and dense row-major operand, gemm_csr_drm_as_drm starting from a zeroed
output computes at each output position (r, j) exactly the triple
nested-loop reference value: the sum over all k columns of the dense
matrix represented by the CSR triple times the dense operand. -/
theorem gemm_csr_drm_as_drm_matches_reference (m n k : ℕ)
    (indptr indices : List ℕ) (values : List ℚ) (B : ℕ → ℚ)
    (ldb ldc : ℕ) (r j : ℕ)
    (hmono : ∀ i, i < m → indptr.getD i 0 ≤ indptr.getD (i + 1) 0)
    (hidx : ∀ c, c < indptr.getD m 0 → indices.getD c 0 < k)
    (hldc : n ≤ ldc) (hr : r < m) (hj : j < n) :
    gemm_csr_drm_as_drm m n indptr indices values B ldb (fun _ => 0) ldc
        (r * ldc + j) =
      ∑ c ∈ Finset.range k,
        csrToDense indptr indices values r c * B (c * ldb + j) := by
  have hrow_sub : indptr.getD (r + 1) 0 ≤ indptr.getD m 0 :=
    indptr_mono_le indptr m hmono (r + 1) m (by omega) (le_refl m)
  have hrow_lo : indptr.getD r 0 ≤ indptr.getD (r + 1) 0 := hmono r hr
  have hmem_bound : ∀ c ∈ List.range' (indptr.getD r 0)
      (indptr.getD (r + 1) 0 - indptr.getD r 0), indices.getD c 0 < k := by
    intro c hc
    rw [List.mem_range'] at hc
    obtain ⟨i, hi, hceq⟩ := hc
    apply hidx
    omega
  have hgroup :
      drmRowSum indptr indices values B ldb r j =
        ∑ c ∈ Finset.range k,
          csrToDense indptr indices values r c * B (c * ldb + j) := by
    rw [drmRowSum]
    rw [sum_map_group_by_index _ _ _ (fun c => B (c * ldb + j)) k hmem_bound]
    rfl
  rw [gemm_csr_drm_as_drm]
  by_cases hguard : m = 0 ∨ indptr.getD 0 0 = indptr.getD m 0
  · rw [if_pos hguard]
    rcases hguard with hm0 | hflat
    · omega
    · have h1 : indptr.getD 0 0 ≤ indptr.getD r 0 :=
        indptr_mono_le indptr m hmono 0 r (by omega) (by omega)
      have hempty : indptr.getD (r + 1) 0 - indptr.getD r 0 = 0 := by omega
      have hzero :
          ∑ c ∈ Finset.range k,
              csrToDense indptr indices values r c * B (c * ldb + j) = 0 := by
        apply Finset.sum_eq_zero
        intro c _
        rw [csrToDense, hempty]
        simp
      rw [hzero]
  · rw [if_neg hguard]
    rw [gemmRowsDrm_apply]
    have hfilter :
        (List.range m).filter
            (fun r' => decide (r' * ldc ≤ r * ldc + j ∧
              r * ldc + j < r' * ldc + n)) = [r] := by
      rw [List.filter_congr (q := fun x => decide (x = r))]
      · exact filter_range_eq_single m r hr
      · intro r' hr'
        simp only [decide_eq_decide]
        constructor
        · rintro ⟨h1, h2⟩
          by_contra hne
          rcases Nat.lt_or_ge r' r with hlt | hge
          · have hmul : (r' + 1) * ldc ≤ r * ldc :=
              Nat.mul_le_mul_right ldc hlt
            have hexp : (r' + 1) * ldc = r' * ldc + ldc := by ring
            omega
          · have hgt : r < r' := by omega
            have hmul : (r + 1) * ldc ≤ r' * ldc :=
              Nat.mul_le_mul_right ldc hgt
            have hexp : (r + 1) * ldc = r * ldc + ldc := by ring
            omega
        · rintro rfl
          constructor
          · omega
          · omega
    rw [hfilter]
    simp only [List.map_cons, List.map_nil, List.sum_cons, List.sum_nil]
    have harg : r * ldc + j - r * ldc = j := by omega
    rw [harg, hgroup]
    simp

theorem gemm_csr_drm_as_drm_matches_reference_witness :
    gemm_csr_drm_as_drm 3 3 [0, 2, 2, 3] [0, 1, 2] [1, 2, 3]
        (fun i => if i = 0 ∨ i = 4 ∨ i = 8 then 1 else 0) 3 (fun _ => 0) 3
        (0 * 3 + 1) = 2 ∧
    gemm_csr_drm_as_drm 3 3 [0, 2, 2, 3] [0, 1, 2] [1, 2, 3]
        (fun i => if i = 0 ∨ i = 4 ∨ i = 8 then 1 else 0) 3 (fun _ => 0) 3
        (2 * 3 + 2) = 3 ∧
    gemm_csr_drm_as_drm 3 3 [0, 2, 2, 3] [0, 1, 2] [1, 2, 3]
        (fun i => if i = 0 ∨ i = 4 ∨ i = 8 then 1 else 0) 3 (fun _ => 0) 3
        (1 * 3 + 0) = 0 := by
  refine ⟨?_, ?_, ?_⟩
  · exact (gemm_csr_drm_as_drm_matches_reference 3 3 3 [0, 2, 2, 3]
      [0, 1, 2] [1, 2, 3] (fun i => if i = 0 ∨ i = 4 ∨ i = 8 then 1 else 0)
      3 3 0 1 (by decide) (by decide) (by decide) (by decide)
      (by decide)).trans
      (by norm_num [csrToDense, Finset.sum_range_succ, List.range'])
  · exact (gemm_csr_drm_as_drm_matches_reference 3 3 3 [0, 2, 2, 3]
      [0, 1, 2] [1, 2, 3] (fun i => if i = 0 ∨ i = 4 ∨ i = 8 then 1 else 0)
      3 3 2 2 (by decide) (by decide) (by decide) (by decide)
      (by decide)).trans
      (by norm_num [csrToDense, Finset.sum_range_succ, List.range'])
  · exact (gemm_csr_drm_as_drm_matches_reference 3 3 3 [0, 2, 2, 3]
      [0, 1, 2] [1, 2, 3] (fun i => if i = 0 ∨ i = 4 ∨ i = 8 then 1 else 0)
      3 3 1 0 (by decide) (by decide) (by decide) (by decide)
      (by decide)).trans
      (by norm_num [csrToDense, Finset.sum_range_succ, List.range'])

/-! ## Sparse-row times dense-row-major kernel, column-major output
(gemm_csr_drm_as_dcm, src/matmul.cpp lines 150-185) -/

/-- Body of one row iteration of gemm_csr_drm_as_dcm (lines 170-184).
The state is the pair (output buffer, scratch buffer). For a row with at
least one stored nonzero the scratch is zero-filled over ldb elements
(memset at line 179), the row's partial products are accumulated into it
over n elements (lines 180-181), and n elements are strided-copied into
the output column at base offset row with stride ldc (line 182). A row
with no stored nonzeros leaves both buffers untouched. -/
def dcmStep (n : ℕ) (indptr indices : List ℕ) (values : List ℚ)
    (B : ℕ → ℚ) (ldb ldc : ℕ) (st : (ℕ → ℚ) × (ℕ → ℚ)) (row : ℕ) :
    (ℕ → ℚ) × (ℕ → ℚ) :=
  if indptr.getD row 0 < indptr.getD (row + 1) 0 then
    let scratch0 : ℕ → ℚ := fun j => if j < ldb then 0 else st.2 j
    let scratch1 : ℕ → ℚ :=
      (List.range' (indptr.getD row 0)
          (indptr.getD (row + 1) 0 - indptr.getD row 0)).foldl
        (fun sc c =>
          axpy1 n (values.getD c 0) B (indices.getD c 0 * ldb) sc 0)
        scratch0
    (tcopyAt n scratch1 1 st.1 row ldc, scratch1)
  else st

/-- The kernel gemm_csr_drm_as_dcm (lines 150-185): early return when there
are no rows or no stored nonzeros (line 160), otherwise the row loop.
The scratch buffer is allocated lazily by new without initialization
(line 176), so its initial contents scr0 are arbitrary and are quantified
over in the theorems below. -/
def gemm_csr_drm_as_dcm (m n : ℕ) (indptr indices : List ℕ)
    (values : List ℚ) (B : ℕ → ℚ) (ldb : ℕ) (Out : ℕ → ℚ) (ldc : ℕ)
    (scr0 : ℕ → ℚ) : ℕ → ℚ :=
  if m = 0 ∨ indptr.getD 0 0 = indptr.getD m 0 then Out
  else
    ((List.range m).foldl (dcmStep n indptr indices values B ldb ldc)
      (Out, scr0)).1

theorem dcmRows_out_unchanged (n : ℕ) (indptr indices : List ℕ)
    (values : List ℚ) (B : ℕ → ℚ) (ldb ldc : ℕ) (rows : List ℕ)
    (st : (ℕ → ℚ) × (ℕ → ℚ)) (p : ℕ)
    (h : ∀ r ∈ rows, indptr.getD r 0 < indptr.getD (r + 1) 0 →
      ∀ j, j < n → p ≠ r + j * ldc) :
    ((rows.foldl (dcmStep n indptr indices values B ldb ldc) st).1) p =
      st.1 p := by
  induction rows generalizing st with
  | nil => rfl
  | cons r rest ih =>
    rw [List.foldl_cons]
    rw [ih _ (fun r' hr' => h r' (List.mem_cons_of_mem r hr'))]
    rw [dcmStep]
    by_cases hne : indptr.getD r 0 < indptr.getD (r + 1) 0
    · rw [if_pos hne]
      exact tcopyAt_apply_of_notin n _ 1 st.1 r ldc p
        (fun j hj => h r (List.mem_cons_self r rest) hne j hj)
    · rw [if_neg hne]

/-- C6. Frame conditions of the materialize-mode kernel: (a) the output
column of a sparse row with no stored nonzeros is left completely
unwritten, whatever the other rows do and whatever garbage the scratch
holds; (b) a sparse matrix with no stored nonzeros at all, and likewise a
zero-row matrix, makes both gemm kernels return with the output buffer
untouched (all-zero if it started zeroed); (c) the row step for an empty
row neither zeroes nor copies the scratch buffer: it leaves the whole
state exactly as it was. -/
theorem gemm_dcm_empty_row_frame (m n : ℕ) (indptr indices : List ℕ)
    (values : List ℚ) (B : ℕ → ℚ) (ldb : ℕ) (Out : ℕ → ℚ) (ldc : ℕ)
    (scr0 : ℕ → ℚ) :
    (∀ r j, m ≤ ldc → r < m → j < n →
      indptr.getD r 0 = indptr.getD (r + 1) 0 →
      gemm_csr_drm_as_dcm m n indptr indices values B ldb Out ldc scr0
          (r + j * ldc) =
        Out (r + j * ldc)) ∧
    (indptr.getD 0 0 = indptr.getD m 0 →
      gemm_csr_drm_as_dcm m n indptr indices values B ldb Out ldc scr0 =
          Out ∧
        gemm_csr_drm_as_drm m n indptr indices values B ldb Out ldc = Out) ∧
    (m = 0 →
      gemm_csr_drm_as_dcm m n indptr indices values B ldb Out ldc scr0 =
          Out ∧
        gemm_csr_drm_as_drm m n indptr indices values B ldb Out ldc = Out) ∧
    (∀ st row, ¬ indptr.getD row 0 < indptr.getD (row + 1) 0 →
      dcmStep n indptr indices values B ldb ldc st row = st) := by
  refine ⟨?_, ?_, ?_, ?_⟩
  · intro r j hmldc hr hj hempty
    rw [gemm_csr_drm_as_dcm]
    by_cases hguard : m = 0 ∨ indptr.getD 0 0 = indptr.getD m 0
    · rw [if_pos hguard]
    · rw [if_neg hguard]
      apply dcmRows_out_unchanged
      intro r' hr' hne j' hj' habs
      have hr'm : r' < m := List.mem_range.mp hr'
      by_cases hrr : r' = r
      · subst hrr
        omega
      · have h1 : r % ldc = r := Nat.mod_eq_of_lt (by omega)
        have h2 : r' % ldc = r' := Nat.mod_eq_of_lt (by omega)
        have h3 : (r + j * ldc) % ldc = r % ldc :=
          Nat.add_mul_mod_self_right r j ldc
        have h4 : (r' + j' * ldc) % ldc = r' % ldc :=
          Nat.add_mul_mod_self_right r' j' ldc
        rw [habs] at h3
        omega
  · intro hflat
    constructor
    · rw [gemm_csr_drm_as_dcm, if_pos (Or.inr hflat)]
    · rw [gemm_csr_drm_as_drm, if_pos (Or.inr hflat)]
  · intro hm0
    constructor
    · rw [gemm_csr_drm_as_dcm, if_pos (Or.inl hm0)]
    · rw [gemm_csr_drm_as_drm, if_pos (Or.inl hm0)]
  · intro st row hne
    rw [dcmStep, if_neg hne]

theorem gemm_dcm_empty_row_frame_witness :
    gemm_csr_drm_as_dcm 2 2 [0, 0, 1] [0] [5]
        (fun i => (i : ℚ) + 1) 2 (fun _ => 0) 2 (fun _ => 7) (0 + 1 * 2) =
      0 :=
  ((gemm_dcm_empty_row_frame 2 2 [0, 0, 1] [0] [5] (fun i => (i : ℚ) + 1) 2
      (fun _ => 0) 2 (fun _ => 7)).1 0 1 (by decide) (by decide) (by decide)
      (by decide)).trans rfl

/-! ## Scratch buffer allocation of gemm_csr_drm_as_dcm (claim C4) -/

/-- Number of elements allocated for the per-thread scratch row buffer of
gemm_csr_drm_as_dcm: line 176 allocates new real_t[ldc], i.e. ldc
elements, where ldc is the leading dimension of the column-major OUTPUT. -/
def dcmScratchAllocLen (ldc : ℕ) : ℕ := ldc

/-- Upper bound (exact supremum) of the element offsets accessed in the
scratch buffer during one nonempty row of gemm_csr_drm_as_dcm: the memset
at line 179 writes elements [0, ldb), each axpy at line 181 writes
elements [0, n), and the tcopy at line 182 reads elements [0, n). -/
def dcmScratchAccessLen (n ldb : ℕ) : ℕ := max ldb n

/-- Arguments with which the only caller, tcrossprod_csr_dense (lines
316-343), invokes gemm_csr_drm_as_dcm: m and n are the output's row and
column counts (sparse rows and dense rows respectively), ldb is the dense
operand's leading dimension Y_colmajor.nrow() which equals n, and ldc is
the output's leading dimension out_colmajor.nrow() which equals m. The
pair returned is (ldb, ldc). -/
def tcrossprodCsrDenseLeadingDims (m n : ℕ) : ℕ × ℕ := (n, m)

/-- C4 (refuting evaluation). At the valid call shape m = 1, n = 5
(a 1-row sparse CSR operand times a 5-row dense operand, a legal input to
tcrossprod_csr_dense), the scratch buffer is allocated with ldc = 1
element while the kernel memsets and accumulates over max(ldb, n) = 5
elements, so the accesses leave the allocation, and the allocated length
also differs from the dense operand's leading dimension claimed by the
specification. -/
theorem dcm_scratch_overflow_at_m1_n5 :
    dcmScratchAllocLen (tcrossprodCsrDenseLeadingDims 1 5).2 <
        dcmScratchAccessLen 5 (tcrossprodCsrDenseLeadingDims 1 5).1 ∧
      dcmScratchAllocLen (tcrossprodCsrDenseLeadingDims 1 5).2 ≠
        (tcrossprodCsrDenseLeadingDims 1 5).1 := by
  decide

/-! ## Sparse-row times dense-vector kernel (matmul_csr_dvec,
src/matmul.cpp lines 381-419) with NA propagation -/

/-- Missing-value-absorbing addition on the double accumulator: NA_REAL is
an IEEE NaN payload and addition with a NaN yields NaN, so once a missing
term was added the accumulator stays missing. Missing is modelled as
none. -/
def naAdd (a b : Option ℚ) : Option ℚ :=
  match a, b with
  | some x, some y => some (x + y)
  | _, _ => none

/-- One accumulation term of matmul_csr_dvec for a dense integer (or
logical) operand (lines 406-411): if the dense element carries the missing
sentinel the term is NA_REAL (none), otherwise the sparse value times the
dense element. -/
def dvecTerm (values : List ℚ) (indices : List ℕ) (y : ℕ → Option ℤ)
    (ix : ℕ) : Option ℚ :=
  match y (indices.getD ix 0) with
  | none => none
  | some t => some (values.getD ix 0 * (t : ℚ))

/-- The kernel matmul_csr_dvec instantiated at a dense integer/logical
operand (lines 401-416): for every row, fold the accumulation terms of
positions [indptr[row], indptr[row+1]) into a double accumulator starting
at zero. -/
def matmul_csr_dvec_int (nrows : ℕ) (indptr indices : List ℕ)
    (values : List ℚ) (y : ℕ → Option ℤ) : List (Option ℚ) :=
  (List.range nrows).map (fun row =>
    (List.range' (indptr.getD row 0)
        (indptr.getD (row + 1) 0 - indptr.getD row 0)).foldl
      (fun val ix => naAdd val (dvecTerm values indices y ix)) (some 0))

theorem naAdd_none_left (b : Option ℚ) : naAdd none b = none := by
  cases b <;> rfl

theorem naAdd_none_right (a : Option ℚ) : naAdd a none = none := by
  cases a <;> rfl

theorem naAdd_fold_none (f : ℕ → Option ℚ) (L : List ℕ) :
    L.foldl (fun val ix => naAdd val (f ix)) none = none := by
  induction L with
  | nil => rfl
  | cons c L ih =>
    rw [List.foldl_cons, naAdd_none_left, ih]

theorem naAdd_fold_of_mem_none (f : ℕ → Option ℚ) (L : List ℕ)
    (v : Option ℚ) (c : ℕ) (hc : c ∈ L) (hnone : f c = none) :
    L.foldl (fun val ix => naAdd val (f ix)) v = none := by
  induction L generalizing v with
  | nil => cases hc
  | cons d L ih =>
    rw [List.foldl_cons]
    rcases List.mem_cons.mp hc with hdc | hmem
    · subst hdc
      rw [hnone, naAdd_none_right, naAdd_fold_none]
    · exact ih _ hmem

theorem naAdd_fold_of_all_some (f : ℕ → Option ℚ) (L : List ℕ) (a : ℚ)
    (h : ∀ c ∈ L, f c ≠ none) :
    L.foldl (fun val ix => naAdd val (f ix)) (some a) =
      some (a + (L.map (fun c => (f c).getD 0)).sum) := by
  induction L generalizing a with
  | nil => simp
  | cons d L ih =>
    rw [List.foldl_cons]
    obtain ⟨q, hq⟩ := Option.ne_none_iff_exists'.mp
      (h d (List.mem_cons_self d L))
    rw [hq]
    have : naAdd (some a) (some q) = some (a + q) := rfl
    rw [this, ih (a + q) (fun c hc => h c (List.mem_cons_of_mem d hc))]
    simp only [List.map_cons, List.sum_cons, hq, Option.getD_some]
    rw [add_assoc]

/-- C3. NA propagation in matmul_csr_dvec for dense integer/logical
operands: if any dense position touched by a stored nonzero of row r
carries the missing sentinel, row r's output is the missing value —
regardless of the remaining terms — and a row touching no missing position
yields the ordinary dot product of its stored values with the touched
dense elements. -/
theorem matmul_csr_dvec_int_na_propagation (nrows : ℕ)
    (indptr indices : List ℕ) (values : List ℚ) (y : ℕ → Option ℤ)
    (row : ℕ) (hrow : row < nrows) :
    ((∃ ix ∈ List.range' (indptr.getD row 0)
          (indptr.getD (row + 1) 0 - indptr.getD row 0),
        y (indices.getD ix 0) = none) →
      (matmul_csr_dvec_int nrows indptr indices values y).getD row
          (some 0) = none) ∧
    ((∀ ix ∈ List.range' (indptr.getD row 0)
          (indptr.getD (row + 1) 0 - indptr.getD row 0),
        y (indices.getD ix 0) ≠ none) →
      (matmul_csr_dvec_int nrows indptr indices values y).getD row
          (some 0) =
        some ((List.range' (indptr.getD row 0)
            (indptr.getD (row + 1) 0 - indptr.getD row 0)).map
          (fun ix => values.getD ix 0 *
            (((y (indices.getD ix 0)).getD 0 : ℤ) : ℚ))).sum) := by
  have hget :
      (matmul_csr_dvec_int nrows indptr indices values y).getD row
          (some 0) =
        (List.range' (indptr.getD row 0)
            (indptr.getD (row + 1) 0 - indptr.getD row 0)).foldl
          (fun val ix => naAdd val (dvecTerm values indices y ix))
          (some 0) := by
    rw [matmul_csr_dvec_int]
    rw [List.getD_eq_getElem?_getD, List.getElem?_map,
      List.getElem?_range hrow]
    rfl
  constructor
  · rintro ⟨ix, hmem, hna⟩
    rw [hget]
    apply naAdd_fold_of_mem_none _ _ _ ix hmem
    rw [dvecTerm, hna]
  · intro hall
    rw [hget]
    rw [naAdd_fold_of_all_some _ _ 0 (fun c hc => by
      rw [dvecTerm]
      obtain ⟨t, ht⟩ := Option.ne_none_iff_exists'.mp (hall c hc)
      rw [ht]
      exact Option.some_ne_none _)]
    rw [zero_add]
    have hmapeq :
        (List.range' (indptr.getD row 0)
            (indptr.getD (row + 1) 0 - indptr.getD row 0)).map
          (fun c => (dvecTerm values indices y c).getD 0) =
        (List.range' (indptr.getD row 0)
            (indptr.getD (row + 1) 0 - indptr.getD row 0)).map
          (fun ix => values.getD ix 0 *
            (((y (indices.getD ix 0)).getD 0 : ℤ) : ℚ)) := by
      apply List.map_congr_left
      intro ix hix
      obtain ⟨t, ht⟩ := Option.ne_none_iff_exists'.mp (hall ix hix)
      rw [dvecTerm, ht]
      simp
    rw [hmapeq]

theorem matmul_csr_dvec_int_na_propagation_witness :
    (matmul_csr_dvec_int 2 [0, 2, 3] [0, 1, 0] [2, 3, 5]
        (fun i => if i = 1 then none else some 4)).getD 0 (some 0) =
        none ∧
      (matmul_csr_dvec_int 2 [0, 2, 3] [0, 1, 0] [2, 3, 5]
          (fun i => if i = 1 then none else some 4)).getD 1 (some 0) =
        some 20 := by
  constructor
  · exact (matmul_csr_dvec_int_na_propagation 2 [0, 2, 3] [0, 1, 0]
      [2, 3, 5] (fun i => if i = 1 then none else some 4) 0
      (by decide)).1 (by decide)
  · exact ((matmul_csr_dvec_int_na_propagation 2 [0, 2, 3] [0, 1, 0]
      [2, 3, 5] (fun i => if i = 1 then none else some 4) 1
      (by decide)).2 (by decide)).trans
      (by norm_num [List.range'])

/-! ## Accumulator precision of matmul_csr_dvec (claim C5)

The accumulator type of the kernel is a compile-time fact, settled at the
level of the template instantiations; it is embedded symbolically. -/

/-- Floating-point element widths occurring in the kernels. -/
inductive Prec where
  | f32 : Prec
  | f64 : Prec
deriving DecidableEq

/-- The wider of two floating-point precisions. -/
def widerPrec (a b : Prec) : Prec :=
  match a, b with
  | Prec.f64, _ => Prec.f64
  | _, Prec.f64 => Prec.f64
  | _, _ => Prec.f32

/-- The variants with which matmul_csr_dvec is instantiated
(src/matmul.cpp lines 421-483). -/
inductive DvecVariant where
  | numeric : DvecVariant
  | integer : DvecVariant
  | logical : DvecVariant
  | float32 : DvecVariant
deriving DecidableEq

/-- OutputDType of each instantiation of matmul_csr_dvec: double for the
numeric, integer and logical variants, float for matmul_csr_dvec_float32
(line 476 instantiates the template at OutputDType = float). -/
def dvecOutputPrec (v : DvecVariant) : Prec :=
  match v with
  | DvecVariant.float32 => Prec.f32
  | _ => Prec.f64

/-- Precision of the sparse values operand: X_csr_values is an R numeric
vector, i.e. double, in every variant (line 384). -/
def dvecSparsePrec (_ : DvecVariant) : Prec := Prec.f64

/-- Precision at which the dense operand's elements enter the product:
single for the float32 variant (the dense data is a float buffer, line
480), double otherwise (numeric data is double; integer and logical data
are promoted to double in the product). -/
def dvecDensePrec (v : DvecVariant) : Prec :=
  match v with
  | DvecVariant.float32 => Prec.f32
  | _ => Prec.f64

/-- Type of the per-row accumulator of matmul_csr_dvec: line 403 declares
the accumulator as OutputDType val = 0, so the accumulator precision is
the output precision of the variant. -/
def dvecAccumPrec (v : DvecVariant) : Prec := dvecOutputPrec v

/-- C5 (refutation). In the float32 variant of matmul_csr_dvec the per-row
accumulator is declared with the output element type, single precision,
whereas the wider of the two input precisions (double sparse values,
single dense values) is double: the claim that the accumulator is always
the wider input precision fails at this variant. -/
theorem dvec_float32_accum_not_wider :
    dvecAccumPrec DvecVariant.float32 ≠
      widerPrec (dvecSparsePrec DvecVariant.float32)
        (dvecDensePrec DvecVariant.float32) := by
  decide

/-- C5 (amended). The per-row accumulator of matmul_csr_dvec has the
variant's output precision: for the numeric, integer and logical variants
this coincides with the wider of the two input precisions (double), but
the float32 variant accumulates in single precision even though its
sparse operand is double. -/
theorem dvec_accum_is_output_prec :
    (∀ v, dvecAccumPrec v = dvecOutputPrec v) ∧
      dvecAccumPrec DvecVariant.numeric =
        widerPrec (dvecSparsePrec DvecVariant.numeric)
          (dvecDensePrec DvecVariant.numeric) ∧
      dvecAccumPrec DvecVariant.integer =
        widerPrec (dvecSparsePrec DvecVariant.integer)
          (dvecDensePrec DvecVariant.integer) ∧
      dvecAccumPrec DvecVariant.logical =
        widerPrec (dvecSparsePrec DvecVariant.logical)
          (dvecDensePrec DvecVariant.logical) ∧
      dvecAccumPrec DvecVariant.float32 = Prec.f32 := by
  refine ⟨fun v => rfl, ?_, ?_, ?_, ?_⟩ <;> decide

/-! ## Sparse-row times sparse-vector kernel (matmul_csr_svec,
src/matmul.cpp lines 486-551) -/

/-- Model of std::lower_bound over a sorted index-value sequence: the
suffix starting at the first element whose index is not less than the
target. -/
def lowerBound (target : ℤ) (l : List (ℤ × ℚ)) : List (ℤ × ℚ) :=
  l.dropWhile (fun q => q.1 < target)

/-- The merge/galloping loop of matmul_csr_svec (lines 516-544) for one
row, acting on the remaining (index, value) pairs of the row (zero-based
indices) and of the sparse vector operand (one-based indices).
When either side is exhausted the accumulated sum is final; when the
current zero-based row index equals the current one-based vector index
minus one, the product of the paired values is accumulated and both
cursors advance; otherwise the cursor standing at the smaller index is
advanced by a lower-bound search for the other cursor's current index. -/
def svecGallop : List (ℤ × ℚ) → List (ℤ × ℚ) → ℚ
  | [], _ => 0
  | _ :: _, [] => 0
  | p1 :: t1, p2 :: t2 =>
    if p1.1 = p2.1 - 1 then
      p1.2 * p2.2 + svecGallop t1 t2
    else if h2 : p2.1 - 1 > p1.1 then
      svecGallop (lowerBound (p2.1 - 1) (p1 :: t1)) (p2 :: t2)
    else
      svecGallop (p1 :: t1) (lowerBound (p1.1 + 1) (p2 :: t2))
termination_by l1 l2 => l1.length + l2.length
decreasing_by
  · simp only [List.length_cons]
    omega
  · rw [lowerBound, List.dropWhile_cons_of_pos (by simpa using h2)]
    have := List.Sublist.length_le (List.dropWhile_sublist
      (l := t1) (p := fun q : ℤ × ℚ => decide (q.1 < p2.1 - 1)))
    simp only [List.length_cons]
    omega
  · rename_i h1
    have hlt : p2.1 < p1.1 + 1 := by omega
    rw [lowerBound, List.dropWhile_cons_of_pos (by simpa using hlt)]
    have := List.Sublist.length_le (List.dropWhile_sublist
      (l := t2) (p := fun q : ℤ × ℚ => decide (q.1 < p1.1 + 1)))
    simp only [List.length_cons]
    omega

/-- Reference sparse-vector dot product: the sum of products over exactly
those index pairs where the zero-based index of the first operand equals
the one-based index of the second operand minus one. -/
def svecDotRef (l1 l2 : List (ℤ × ℚ)) : ℚ :=
  (l1.map (fun p =>
    (l2.map (fun q => if p.1 = q.1 - 1 then p.2 * q.2 else 0)).sum)).sum

/-- Indices strictly ascending along a sparse (index, value) sequence:
the sortedness invariant of CSR row segments and of the sparse vector
operand. -/
def strictlyAsc (l : List (ℤ × ℚ)) : Prop :=
  l.Pairwise (fun p q => p.1 < q.1)

instance (l : List (ℤ × ℚ)) : Decidable (strictlyAsc l) :=
  inferInstanceAs (Decidable (l.Pairwise _))

theorem svecDotRef_nil_right (l1 : List (ℤ × ℚ)) : svecDotRef l1 [] = 0 := by
  rw [svecDotRef]
  apply List.sum_eq_zero
  intro x hx
  obtain ⟨p, _, hp⟩ := List.mem_map.mp hx
  simpa using hp.symm

theorem svecDotRef_inner_zero (p : ℤ × ℚ) (l2 : List (ℤ × ℚ))
    (h : ∀ q ∈ l2, p.1 ≠ q.1 - 1) :
    (l2.map (fun q => if p.1 = q.1 - 1 then p.2 * q.2 else 0)).sum = 0 := by
  apply List.sum_eq_zero
  intro x hx
  obtain ⟨q, hq, hqe⟩ := List.mem_map.mp hx
  rw [← hqe, if_neg (h q hq)]

theorem svecDotRef_zero (l1 l2 : List (ℤ × ℚ))
    (h : ∀ p ∈ l1, ∀ q ∈ l2, p.1 ≠ q.1 - 1) : svecDotRef l1 l2 = 0 := by
  rw [svecDotRef]
  apply List.sum_eq_zero
  intro x hx
  obtain ⟨p, hp, hpe⟩ := List.mem_map.mp hx
  rw [← hpe]
  exact svecDotRef_inner_zero p l2 (h p hp)

theorem svecDotRef_cons_left (p : ℤ × ℚ) (l1 l2 : List (ℤ × ℚ)) :
    svecDotRef (p :: l1) l2 =
      (l2.map (fun q => if p.1 = q.1 - 1 then p.2 * q.2 else 0)).sum +
        svecDotRef l1 l2 := by
  rw [svecDotRef, List.map_cons, List.sum_cons, svecDotRef]

theorem svecDotRef_append_left (a b l2 : List (ℤ × ℚ)) :
    svecDotRef (a ++ b) l2 = svecDotRef a l2 + svecDotRef b l2 := by
  rw [svecDotRef, List.map_append, List.sum_append, svecDotRef, svecDotRef]

theorem svecDotRef_cons_right (l1 : List (ℤ × ℚ)) (q : ℤ × ℚ)
    (l2 : List (ℤ × ℚ)) :
    svecDotRef l1 (q :: l2) =
      (l1.map (fun p => if p.1 = q.1 - 1 then p.2 * q.2 else 0)).sum +
        svecDotRef l1 l2 := by
  induction l1 with
  | nil => simp [svecDotRef]
  | cons p l1 ih =>
    rw [svecDotRef_cons_left, ih, svecDotRef_cons_left]
    simp only [List.map_cons, List.sum_cons]
    ring

theorem svecDotRef_append_right (l1 a b : List (ℤ × ℚ)) :
    svecDotRef l1 (a ++ b) = svecDotRef l1 a + svecDotRef l1 b := by
  induction a with
  | nil => simp [svecDotRef_nil_right]
  | cons q a ih =>
    rw [List.cons_append, svecDotRef_cons_right, ih, svecDotRef_cons_right]
    ring

theorem strictlyAsc_head_lt (p : ℤ × ℚ) (t : List (ℤ × ℚ))
    (h : strictlyAsc (p :: t)) : ∀ q ∈ t, p.1 < q.1 :=
  (List.pairwise_cons.mp h).1

theorem strictlyAsc_tail (p : ℤ × ℚ) (t : List (ℤ × ℚ))
    (h : strictlyAsc (p :: t)) : strictlyAsc t :=
  (List.pairwise_cons.mp h).2

theorem strictlyAsc_dropWhile (pr : ℤ × ℚ → Bool) (l : List (ℤ × ℚ))
    (h : strictlyAsc l) : strictlyAsc (l.dropWhile pr) :=
  h.sublist (List.dropWhile_sublist pr)

theorem svecGallop_eq_ref :
    ∀ (N : ℕ) (l1 l2 : List (ℤ × ℚ)), l1.length + l2.length ≤ N →
      strictlyAsc l1 → strictlyAsc l2 → svecGallop l1 l2 = svecDotRef l1 l2 := by
  intro N
  induction N with
  | zero =>
    intro l1 l2 hlen h1 h2
    cases l1 with
    | nil => simp [svecGallop, svecDotRef]
    | cons p t => simp at hlen
  | succ N ih =>
    intro l1 l2 hlen h1 h2
    cases l1 with
    | nil => simp [svecGallop, svecDotRef]
    | cons p1 t1 =>
      cases l2 with
      | nil =>
        rw [svecDotRef_nil_right, svecGallop]
      | cons p2 t2 =>
        rw [svecGallop]
        by_cases hmatch : p1.1 = p2.1 - 1
        · rw [if_pos hmatch]
          have hrec : svecGallop t1 t2 = svecDotRef t1 t2 := by
            apply ih t1 t2 _ (strictlyAsc_tail _ _ h1)
              (strictlyAsc_tail _ _ h2)
            simp only [List.length_cons] at hlen
            omega
          rw [hrec, svecDotRef_cons_left, svecDotRef_cons_right]
          have hinner :
              ((p2 :: t2).map
                (fun q => if p1.1 = q.1 - 1 then p1.2 * q.2 else 0)).sum =
                p1.2 * p2.2 := by
            rw [List.map_cons, List.sum_cons, if_pos hmatch]
            rw [svecDotRef_inner_zero p1 t2 (fun q hq => by
              have := strictlyAsc_head_lt p2 t2 h2 q hq
              omega)]
            ring
          have hcol :
              (t1.map
                (fun p => if p.1 = p2.1 - 1 then p.2 * p2.2 else 0)).sum =
                0 := by
            apply List.sum_eq_zero
            intro x hx
            obtain ⟨p, hp, hpe⟩ := List.mem_map.mp hx
            rw [← hpe, if_neg (by
              have := strictlyAsc_head_lt p1 t1 h1 p hp
              omega)]
          rw [hinner, hcol]
          ring
        · rw [if_neg hmatch]
          by_cases hgt : p2.1 - 1 > p1.1
          · rw [dif_pos hgt]
            have hdrop : lowerBound (p2.1 - 1) (p1 :: t1) =
                lowerBound (p2.1 - 1) t1 := by
              rw [lowerBound, lowerBound,
                List.dropWhile_cons_of_pos (by simpa using hgt)]
            have hsub := List.Sublist.length_le (List.dropWhile_sublist
              (l := t1) (p := fun q : ℤ × ℚ => decide (q.1 < p2.1 - 1)))
            have hlen2 : (lowerBound (p2.1 - 1) (p1 :: t1)).length +
                (p2 :: t2).length ≤ N := by
              rw [hdrop, lowerBound]
              simp only [List.length_cons] at hlen ⊢
              omega
            have hasc : strictlyAsc (lowerBound (p2.1 - 1) (p1 :: t1)) := by
              rw [lowerBound]
              exact strictlyAsc_dropWhile _ _ h1
            have hrec := ih _ _ hlen2 hasc h2
            rw [hrec]
            conv_rhs =>
              rw [← List.takeWhile_append_dropWhile
                (p := fun q : ℤ × ℚ => decide (q.1 < p2.1 - 1))
                (l := p1 :: t1)]
            rw [svecDotRef_append_left]
            have hzero : svecDotRef
                ((p1 :: t1).takeWhile
                  (fun q : ℤ × ℚ => decide (q.1 < p2.1 - 1)))
                (p2 :: t2) = 0 := by
              apply svecDotRef_zero
              intro p hp q hq
              have hplt : p.1 < p2.1 - 1 := by
                simpa using List.mem_takeWhile_imp hp
              rcases List.mem_cons.mp hq with hq2 | hqt
              · subst hq2
                omega
              · have := strictlyAsc_head_lt p2 t2 h2 q hqt
                omega
            rw [hzero, zero_add]
            rfl
          · rw [dif_neg hgt]
            have hlt : p2.1 < p1.1 + 1 := by omega
            have hdrop : lowerBound (p1.1 + 1) (p2 :: t2) =
                lowerBound (p1.1 + 1) t2 := by
              rw [lowerBound, lowerBound,
                List.dropWhile_cons_of_pos (by simpa using hlt)]
            have hsub := List.Sublist.length_le (List.dropWhile_sublist
              (l := t2) (p := fun q : ℤ × ℚ => decide (q.1 < p1.1 + 1)))
            have hlen2 : (p1 :: t1).length +
                (lowerBound (p1.1 + 1) (p2 :: t2)).length ≤ N := by
              rw [hdrop, lowerBound]
              simp only [List.length_cons] at hlen ⊢
              omega
            have hasc : strictlyAsc (lowerBound (p1.1 + 1) (p2 :: t2)) := by
              rw [lowerBound]
              exact strictlyAsc_dropWhile _ _ h2
            have hrec := ih _ _ hlen2 h1 hasc
            rw [hrec]
            conv_rhs =>
              rw [← List.takeWhile_append_dropWhile
                (p := fun q : ℤ × ℚ => decide (q.1 < p1.1 + 1))
                (l := p2 :: t2)]
            rw [svecDotRef_append_right]
            have hzero : svecDotRef (p1 :: t1)
                ((p2 :: t2).takeWhile
                  (fun q : ℤ × ℚ => decide (q.1 < p1.1 + 1))) = 0 := by
              apply svecDotRef_zero
              intro p hp q hq
              have hqlt : q.1 < p1.1 + 1 := by
                simpa using List.mem_takeWhile_imp hq
              rcases List.mem_cons.mp hp with hp1 | hpt
              · subst hp1
                omega
              · have := strictlyAsc_head_lt p1 t1 h1 p hpt
                omega
            rw [hzero, zero_add]
            rfl

/-- CSR row segment as a list of (zero-based index, value) pairs: the
cursor range [indptr[row], indptr[row+1]) paired with the sparse values,
as walked by ptr1 in matmul_csr_svec (lines 512-513). -/
def csrRowPairs (indptr : List ℕ) (indices : List ℤ) (values : List ℚ)
    (row : ℕ) : List (ℤ × ℚ) :=
  (List.range' (indptr.getD row 0)
      (indptr.getD (row + 1) 0 - indptr.getD row 0)).map
    (fun c => (indices.getD c 0, values.getD c 0))

/-- The kernel matmul_csr_svec at the numeric instantiation (lines
486-551): an output of X_csr_indptr.size()-1 zeros, returned unchanged
when the sparse vector operand has no entries (lines 495-496), and
otherwise filled row by row with the galloping merge of the row segment
against the (one-based index, value) pairs of the operand. -/
def matmul_csr_svec (indptr : List ℕ) (indices : List ℤ) (values : List ℚ)
    (y_indices_base1 : List ℤ) (y_values : List ℚ) : List ℚ :=
  let nrows := indptr.length - 1
  if y_indices_base1.isEmpty then List.replicate nrows 0
  else
    (List.range nrows).map (fun row =>
      svecGallop (csrRowPairs indptr indices values row)
        (y_indices_base1.zip y_values))

/-- C2. For every valid CSR matrix X (row segments with strictly ascending
zero-based indices) and sparse vector operand with strictly ascending
one-based indices, matmul_csr_svec returns for each row the reference dot
product: the sum of products over exactly those index pairs where X's
zero-based index equals the operand's one-based index minus one. -/
theorem matmul_csr_svec_matches_reference (indptr : List ℕ)
    (indices : List ℤ) (values : List ℚ) (y_indices_base1 : List ℤ)
    (y_values : List ℚ) (row : ℕ)
    (hrow : row < indptr.length - 1)
    (hX : strictlyAsc (csrRowPairs indptr indices values row))
    (hy : strictlyAsc (y_indices_base1.zip y_values)) :
    (matmul_csr_svec indptr indices values y_indices_base1 y_values).getD
        row 0 =
      svecDotRef (csrRowPairs indptr indices values row)
        (y_indices_base1.zip y_values) := by
  rw [matmul_csr_svec]
  by_cases hempty : y_indices_base1.isEmpty
  · rw [if_pos hempty]
    have hznil : y_indices_base1.zip y_values = [] := by
      rw [List.isEmpty_iff] at hempty
      rw [hempty, List.zip_nil_left]
    rw [hznil, svecDotRef_nil_right]
    rw [List.getD_eq_getElem?_getD, List.getElem?_replicate]
    simp [hrow]
  · rw [if_neg hempty]
    rw [List.getD_eq_getElem?_getD, List.getElem?_map,
      List.getElem?_range hrow]
    rw [Option.map_some', Option.getD_some]
    exact svecGallop_eq_ref
      ((csrRowPairs indptr indices values row).length +
        (y_indices_base1.zip y_values).length) _ _ (le_refl _) hX hy

theorem matmul_csr_svec_matches_reference_witness :
    (matmul_csr_svec [0, 3] [1, 3, 5] [1, 1, 1] [4, 6] [10, 20]).getD 0 0 =
      30 := by
  have h := matmul_csr_svec_matches_reference [0, 3] [1, 3, 5] [1, 1, 1]
    [4, 6] [10, 20] 0 (by decide) (by decide) (by decide)
  rw [h]
  norm_num [svecDotRef, csrRowPairs, List.range']

/-! ## Sparse outer-product kernel (matmul_colvec_by_scolvecascsr_template,
src/matmul.cpp lines 686-745) -/

/-- State of the construction loop of
matmul_colvec_by_scolvecascsr_template: the write cursor ncurr and the
three output buffers, which start zero-initialized (R vectors and the
value-initialized float scratch are all zero-filled on allocation). -/
structure CvState where
  ncurr : ℕ
  outIndptr : ℕ → ℕ
  outIndices : ℕ → ℕ
  outValues : ℕ → ℚ

/-- Model of std::iota (line 728): writes 0, 1, ..., dim-1 at positions
off, off+1, ..., off+dim-1 of the array. -/
def iotaWrite (dim : ℕ) (arr : ℕ → ℕ) (off : ℕ) : ℕ → ℕ :=
  (List.range dim).foldl (fun acc j => Function.update acc (off + j) j) arr

/-- Initial state: ncurr = 0 and all three output buffers zero-filled. -/
def cvInit : CvState := ⟨0, fun _ => 0, fun _ => 0, fun _ => 0⟩

/-- One iteration of the first loop of
matmul_colvec_by_scolvecascsr_template (lines 722-731): a row with at
least one stored entry receives dim in its indptr slot, an axpy of the
dense vector scaled by the row's leading stored value values[indptr[ix]]
into the value buffer at the cursor, an iota segment in the index buffer,
and advances the cursor by dim; an empty row is skipped entirely. -/
def cvStep (dim : ℕ) (colvec : List ℚ) (indptr : List ℕ)
    (values : List ℚ) (st : CvState) (ix : ℕ) : CvState :=
  if indptr.getD ix 0 < indptr.getD (ix + 1) 0 then
    { ncurr := st.ncurr + dim
      outIndptr := Function.update st.outIndptr (ix + 1) dim
      outIndices := iotaWrite dim st.outIndices st.ncurr
      outValues := axpy1 dim (values.getD (indptr.getD ix 0) 0)
        (fun j => colvec.getD j 0) 0 st.outValues st.ncurr }
  else st

/-- The in-place prefix-sum pass over the output indptr (lines 733-734):
for ix in [0, dim2), indptr[ix+1] += indptr[ix]. -/
def prefixSumLoop (dim2 : ℕ) (p : ℕ → ℕ) : ℕ → ℕ :=
  (List.range dim2).foldl
    (fun acc ix => Function.update acc (ix + 1) (acc (ix + 1) + acc ix)) p

/-- The kernel matmul_colvec_by_scolvecascsr_template (lines 686-745):
dim is the dense vector's length, dim2 the sparse operand's row count,
and the result is the constructed compressed-row triple. The indices
argument of the source only determines the allocation size nnz*dim and
never its contents, so it does not appear. -/
def matmul_colvec_by_scolvecascsr (colvec : List ℚ) (indptr : List ℕ)
    (values : List ℚ) : CvState :=
  let dim := colvec.length
  let dim2 := indptr.length - 1
  let st1 := (List.range dim2).foldl (cvStep dim colvec indptr values) cvInit
  { st1 with outIndptr := prefixSumLoop dim2 st1.outIndptr }

/-- Number of output entries generated for row i: dim if the row has at
least one stored entry, zero otherwise. -/
def rowCount (indptr : List ℕ) (dim i : ℕ) : ℕ :=
  if indptr.getD i 0 < indptr.getD (i + 1) 0 then dim else 0

/-- Start offset of row i's output segment: the running prefix sum of the
per-row counts. -/
def segStart (indptr : List ℕ) (dim i : ℕ) : ℕ :=
  ∑ t ∈ Finset.range i, rowCount indptr dim t

/-- The scalar weight by which row i scales the dense vector: the row's
first stored value values[indptr[ix]] (line 727). -/
def rowWeight (indptr : List ℕ) (values : List ℚ) (i : ℕ) : ℚ :=
  values.getD (indptr.getD i 0) 0

theorem iotaWrite_apply (dim : ℕ) (arr : ℕ → ℕ) (off p : ℕ) :
    iotaWrite dim arr off p =
      if off ≤ p ∧ p < off + dim then p - off else arr p := by
  induction dim with
  | zero =>
    rw [if_neg (by omega)]
    simp [iotaWrite]
  | succ m ih =>
    have hstep : iotaWrite (m + 1) arr off =
        Function.update (iotaWrite m arr off) (off + m) m := by
      simp [iotaWrite, List.range_succ]
    rw [hstep]
    by_cases hp : p = off + m
    · subst hp
      rw [Function.update_same, if_pos (by omega)]
      omega
    · rw [Function.update_noteq hp, ih]
      by_cases hc : off ≤ p ∧ p < off + m
      · rw [if_pos hc, if_pos (by omega)]
      · rw [if_neg hc, if_neg (by omega)]

theorem segStart_succ (indptr : List ℕ) (dim i : ℕ) :
    segStart indptr dim (i + 1) =
      segStart indptr dim i + rowCount indptr dim i :=
  Finset.sum_range_succ _ i

theorem segStart_mono (indptr : List ℕ) (dim : ℕ) {i j : ℕ} (h : i ≤ j) :
    segStart indptr dim i ≤ segStart indptr dim j :=
  Finset.sum_le_sum_of_subset (Finset.range_subset.mpr h)

theorem prefixSumLoop_apply (dim2 : ℕ) (p : ℕ → ℕ) (hp0 : p 0 = 0) :
    (∀ i, i ≤ dim2 →
      prefixSumLoop dim2 p i = ∑ t ∈ Finset.range i, p (t + 1)) ∧
    (∀ i, dim2 < i → prefixSumLoop dim2 p i = p i) := by
  induction dim2 with
  | zero =>
    constructor
    · intro i hi
      have : i = 0 := by omega
      subst this
      simpa [prefixSumLoop]
    · intro i _
      rfl
  | succ u ih =>
    have hstep : prefixSumLoop (u + 1) p =
        Function.update (prefixSumLoop u p) (u + 1)
          (prefixSumLoop u p (u + 1) + prefixSumLoop u p u) := by
      simp [prefixSumLoop, List.range_succ]
    rw [hstep]
    constructor
    · intro i hi
      by_cases hiu : i = u + 1
      · subst hiu
        rw [Function.update_same, ih.2 (u + 1) (by omega),
          ih.1 u (le_refl u), Finset.sum_range_succ]
        omega
      · rw [Function.update_noteq hiu, ih.1 i (by omega)]
    · intro i hi
      rw [Function.update_noteq (by omega), ih.2 i (by omega)]

theorem cvLoop_invariant (dim : ℕ) (colvec : List ℚ) (indptr : List ℕ)
    (values : List ℚ) (t : ℕ) :
    ((List.range t).foldl (cvStep dim colvec indptr values) cvInit).ncurr =
        segStart indptr dim t ∧
      (∀ i j, i < t → indptr.getD i 0 < indptr.getD (i + 1) 0 → j < dim →
        ((List.range t).foldl (cvStep dim colvec indptr values)
              cvInit).outIndices (segStart indptr dim i + j) = j ∧
          ((List.range t).foldl (cvStep dim colvec indptr values)
              cvInit).outValues (segStart indptr dim i + j) =
            rowWeight indptr values i * colvec.getD j 0) ∧
      (∀ p, segStart indptr dim t ≤ p →
        ((List.range t).foldl (cvStep dim colvec indptr values)
            cvInit).outValues p = 0) ∧
      ((List.range t).foldl (cvStep dim colvec indptr values)
          cvInit).outIndptr 0 = 0 ∧
      (∀ i, ((List.range t).foldl (cvStep dim colvec indptr values)
          cvInit).outIndptr (i + 1) =
        if i < t ∧ indptr.getD i 0 < indptr.getD (i + 1) 0 then dim
        else 0) := by
  induction t with
  | zero =>
    refine ⟨rfl, ?_, ?_, rfl, ?_⟩
    · intro i j hi
      omega
    · intro p _
      rfl
    · intro i
      rw [if_neg (by omega)]
      rfl
  | succ t ih =>
    obtain ⟨ihn, ihseg, ihtail, ihp0, ihp⟩ := ih
    rw [List.range_succ, List.foldl_append, List.foldl_cons, List.foldl_nil]
    set st := (List.range t).foldl (cvStep dim colvec indptr values) cvInit
      with hst
    by_cases hne : indptr.getD t 0 < indptr.getD (t + 1) 0
    · have hstep : cvStep dim colvec indptr values st t =
          { ncurr := st.ncurr + dim
            outIndptr := Function.update st.outIndptr (t + 1) dim
            outIndices := iotaWrite dim st.outIndices st.ncurr
            outValues := axpy1 dim (values.getD (indptr.getD t 0) 0)
              (fun j => colvec.getD j 0) 0 st.outValues st.ncurr } := by
        rw [cvStep, if_pos hne]
      rw [hstep]
      have hseg_succ : segStart indptr dim (t + 1) =
          segStart indptr dim t + dim := by
        rw [segStart_succ, rowCount, if_pos hne]
      refine ⟨?_, ?_, ?_, ?_, ?_⟩
      · simpa [hseg_succ] using congrArg (· + dim) ihn
      · intro i j hi hunz hj
        by_cases hit : i = t
        · subst hit
          have hpos : segStart indptr dim i + j = st.ncurr + j := by
            rw [ihn]
          constructor
          · show iotaWrite dim st.outIndices st.ncurr
              (segStart indptr dim i + j) = j
            rw [hpos, iotaWrite_apply, if_pos (by omega)]
            omega
          · show axpy1 dim (values.getD (indptr.getD i 0) 0)
                (fun j => colvec.getD j 0) 0 st.outValues st.ncurr
                (segStart indptr dim i + j) =
              rowWeight indptr values i * colvec.getD j 0
            rw [hpos, axpy1_apply, if_pos (by omega)]
            rw [ihtail (st.ncurr + j) (by omega), zero_add]
            rw [rowWeight]
            congr 2
            omega
        · have hilt : i < t := by omega
          have hbound : segStart indptr dim i + j < st.ncurr := by
            have h1 : segStart indptr dim i + dim ≤
                segStart indptr dim (i + 1) := by
              rw [segStart_succ, rowCount, if_pos hunz]
            have h2 : segStart indptr dim (i + 1) ≤
                segStart indptr dim t :=
              segStart_mono indptr dim (by omega)
            omega
          obtain ⟨hidx, hval⟩ := ihseg i j hilt hunz hj
          constructor
          · show iotaWrite dim st.outIndices st.ncurr
              (segStart indptr dim i + j) = j
            rw [iotaWrite_apply, if_neg (by omega)]
            exact hidx
          · show axpy1 dim (values.getD (indptr.getD t 0) 0)
                (fun j => colvec.getD j 0) 0 st.outValues st.ncurr
                (segStart indptr dim i + j) =
              rowWeight indptr values i * colvec.getD j 0
            rw [axpy1_apply, if_neg (by omega)]
            exact hval
      · intro p hp
        rw [hseg_succ] at hp
        show axpy1 dim (values.getD (indptr.getD t 0) 0)
            (fun j => colvec.getD j 0) 0 st.outValues st.ncurr p = 0
        rw [axpy1_apply, if_neg (by omega)]
        exact ihtail p (by omega)
      · show Function.update st.outIndptr (t + 1) dim 0 = 0
        rw [Function.update_noteq (by omega)]
        exact ihp0
      · intro i
        show Function.update st.outIndptr (t + 1) dim (i + 1) = _
        by_cases hit : i = t
        · subst hit
          rw [Function.update_same, if_pos ⟨by omega, hne⟩]
        · rw [Function.update_noteq (by omega), ihp i]
          by_cases hc : i < t ∧ indptr.getD i 0 < indptr.getD (i + 1) 0
          · rw [if_pos hc, if_pos ⟨by omega, hc.2⟩]
          · rw [if_neg hc, if_neg (by
              rintro ⟨hlt, hunz⟩
              exact hc ⟨by omega, hunz⟩)]
    · have hstep : cvStep dim colvec indptr values st t = st := by
        rw [cvStep, if_neg hne]
      rw [hstep]
      have hseg_succ : segStart indptr dim (t + 1) =
          segStart indptr dim t := by
        rw [segStart_succ, rowCount, if_neg hne]
        omega
      refine ⟨by rw [hseg_succ]; exact ihn, ?_, ?_, ihp0, ?_⟩
      · intro i j hi hunz hj
        by_cases hit : i = t
        · subst hit
          exact absurd hunz hne
        · exact ihseg i j (by omega) hunz hj
      · intro p hp
        rw [hseg_succ] at hp
        exact ihtail p hp
      · intro i
        rw [ihp i]
        by_cases hc : i < t ∧ indptr.getD i 0 < indptr.getD (i + 1) 0
        · rw [if_pos hc, if_pos ⟨by omega, hc.2⟩]
        · rw [if_neg hc, if_neg (by
            rintro ⟨hlt, hunz⟩
            refine hc ⟨?_, hunz⟩
            rcases Nat.lt_succ_iff_lt_or_eq.mp hlt with h | h
            · exact h
            · subst h
              exact absurd hunz hne)]

/-- C7. Structural rank-1 expansion computed by
matmul_colvec_by_scolvecascsr_template: the output indptr is the running
prefix sum of the per-row counts (dim entries for every row with at least
one stored entry, zero entries for every empty row), every populated
row's index segment is exactly 0..dim-1 in order, and its value segment
is the row's scalar weight (its first stored value) times the dense
vector. -/
theorem matmul_colvec_by_scolvecascsr_spec (colvec : List ℚ)
    (indptr : List ℕ) (values : List ℚ) :
    (∀ i, i ≤ indptr.length - 1 →
      (matmul_colvec_by_scolvecascsr colvec indptr values).outIndptr i =
        segStart indptr colvec.length i) ∧
    (∀ i, i < indptr.length - 1 →
      (matmul_colvec_by_scolvecascsr colvec indptr values).outIndptr
          (i + 1) =
        (matmul_colvec_by_scolvecascsr colvec indptr values).outIndptr i +
          rowCount indptr colvec.length i) ∧
    (∀ i j, i < indptr.length - 1 →
      indptr.getD i 0 < indptr.getD (i + 1) 0 → j < colvec.length →
      (matmul_colvec_by_scolvecascsr colvec indptr values).outIndices
          (segStart indptr colvec.length i + j) = j ∧
        (matmul_colvec_by_scolvecascsr colvec indptr values).outValues
            (segStart indptr colvec.length i + j) =
          rowWeight indptr values i * colvec.getD j 0) := by
  obtain ⟨ihn, ihseg, ihtail, ihp0, ihp⟩ :=
    cvLoop_invariant colvec.length colvec indptr values (indptr.length - 1)
  have hindptr :
      (matmul_colvec_by_scolvecascsr colvec indptr values).outIndptr =
        prefixSumLoop (indptr.length - 1)
          ((List.range (indptr.length - 1)).foldl
            (cvStep colvec.length colvec indptr values) cvInit).outIndptr :=
    rfl
  have hidx :
      (matmul_colvec_by_scolvecascsr colvec indptr values).outIndices =
        ((List.range (indptr.length - 1)).foldl
          (cvStep colvec.length colvec indptr values) cvInit).outIndices :=
    rfl
  have hval :
      (matmul_colvec_by_scolvecascsr colvec indptr values).outValues =
        ((List.range (indptr.length - 1)).foldl
          (cvStep colvec.length colvec indptr values) cvInit).outValues :=
    rfl
  have hps := prefixSumLoop_apply (indptr.length - 1) _ ihp0
  have hsum : ∀ i, i ≤ indptr.length - 1 →
      (matmul_colvec_by_scolvecascsr colvec indptr values).outIndptr i =
        segStart indptr colvec.length i := by
    intro i hi
    rw [hindptr, hps.1 i hi, segStart]
    apply Finset.sum_congr rfl
    intro x hx
    rw [ihp x, rowCount]
    have hxlt : x < indptr.length - 1 := by
      have := Finset.mem_range.mp hx
      omega
    by_cases hc : indptr.getD x 0 < indptr.getD (x + 1) 0
    · rw [if_pos ⟨hxlt, hc⟩, if_pos hc]
    · rw [if_neg (fun hcc => hc hcc.2), if_neg hc]
  refine ⟨hsum, ?_, ?_⟩
  · intro i hi
    rw [hsum i (by omega), hsum (i + 1) (by omega), segStart_succ]
  · intro i j hi hunz hj
    obtain ⟨h1, h2⟩ := ihseg i j hi hunz hj
    rw [hidx, hval]
    exact ⟨h1, h2⟩

theorem matmul_colvec_by_scolvecascsr_spec_witness :
    (matmul_colvec_by_scolvecascsr [2, 3] [0, 1, 1, 2] [5, 7]).outIndptr
        3 = 4 ∧
      (matmul_colvec_by_scolvecascsr [2, 3] [0, 1, 1, 2]
          [5, 7]).outIndices (segStart [0, 1, 1, 2] 2 2 + 1) = 1 ∧
      (matmul_colvec_by_scolvecascsr [2, 3] [0, 1, 1, 2] [5, 7]).outValues
          (segStart [0, 1, 1, 2] 2 2 + 1) = 21 := by
  refine ⟨?_, ?_, ?_⟩
  · exact ((matmul_colvec_by_scolvecascsr_spec [2, 3] [0, 1, 1, 2]
      [5, 7]).1 3 (by decide)).trans
      (by norm_num [segStart, rowCount, Finset.sum_range_succ])
  · exact ((matmul_colvec_by_scolvecascsr_spec [2, 3] [0, 1, 1, 2]
      [5, 7]).2.2 2 1 (by decide) (by decide) (by decide)).1
  · exact (((matmul_colvec_by_scolvecascsr_spec [2, 3] [0, 1, 1, 2]
      [5, 7]).2.2 2 1 (by decide) (by decide) (by decide)).2).trans
      (by norm_num [rowWeight])

/-! ## Sparse column-vector contraction kernel
(matmul_spcolvec_by_scolvecascsr, src/matmul.cpp lines 783-855) -/

/-- State of matmul_spcolvec_by_scolvecascsr: the output indptr buffer
(indexed by the signed positions of the source's int arithmetic) and the
two growing push_back vectors. -/
structure SpState where
  outIndptr : ℤ → ℕ
  outIndices : List ℕ
  outValues : List ℚ

/-- Inner loop body over rows (lines 811-833, numeric instantiation): a
row with at least one stored entry pushes yval times the row's first
stored value X_csr_values[X_csr_indptr[row]] and the row number, and
advances the per-column counter; an empty row is skipped. -/
def spInnerStep (X_indptr : List ℕ) (X_values : List ℚ) (yval : ℚ)
    (st : List ℕ × List ℚ × ℕ) (row : ℕ) : List ℕ × List ℚ × ℕ :=
  if X_indptr.getD row 0 < X_indptr.getD (row + 1) 0 then
    (st.1 ++ [row],
      st.2.1 ++ [yval * X_values.getD (X_indptr.getD row 0) 0],
      st.2.2 + 1)
  else st

/-- One iteration of the outer loop over the stored entries of the sparse
vector operand (lines 804-836): col is the one-based index minus one,
yval the dense weight at that column, and after walking all rows the
per-column count lands in outIndptr[col+1]. -/
def spStep (X_indptr : List ℕ) (X_values : List ℚ) (y_indices_base1 : List ℤ)
    (y_values : ℤ → ℚ) (dim2 : ℕ) (st : SpState) (ix : ℕ) : SpState :=
  let col : ℤ := y_indices_base1.getD ix 0 - 1
  let yval : ℚ := y_values col
  let inner := (List.range dim2).foldl
    (spInnerStep X_indptr X_values yval) (st.outIndices, st.outValues, 0)
  { outIndptr := Function.update st.outIndptr (col + 1) inner.2.2
    outIndices := inner.1
    outValues := inner.2.1 }

/-- The prefix-sum pass over the output indptr (lines 838-839). -/
def spPrefixLoop (y_length : ℕ) (p : ℤ → ℕ) : ℤ → ℕ :=
  (List.range y_length).foldl
    (fun acc ix =>
      Function.update acc ((ix : ℤ) + 1) (acc ((ix : ℤ) + 1) + acc (ix : ℤ)))
    p

/-- The kernel matmul_spcolvec_by_scolvecascsr at the numeric
instantiation (lines 783-855): dim2 is the sparse matrix operand's row
count, the outer loop runs over the stored entries of the sparse vector,
and the result is the constructed compressed-column triple. -/
def matmul_spcolvec_by_scolvecascsr (X_indptr : List ℕ)
    (X_values : List ℚ) (y_indices_base1 : List ℤ) (y_values : ℤ → ℚ)
    (y_length : ℕ) : SpState :=
  let dim2 := X_indptr.length - 1
  let st1 := (List.range y_indices_base1.length).foldl
    (spStep X_indptr X_values y_indices_base1 y_values dim2)
    ⟨fun _ => 0, [], []⟩
  { st1 with outIndptr := spPrefixLoop y_length st1.outIndptr }

/-- C10. Both broadcast/contraction kernels read, of each sparse row's
stored values, only the first one (values[indptr[ix]] in
matmul_colvec_by_scolvecascsr_template, X_csr_values[X_csr_indptr[row]]
in matmul_spcolvec_by_scolvecascsr): two value arrays agreeing at the
first stored position of every nonempty row produce identical outputs,
so any stored values after the first in a row are silently ignored and
the results coincide with the intended ones only under the unstated
precondition that every row holds at most one stored entry. -/
theorem kernels_read_only_first_row_value (colvec : List ℚ)
    (indptr : List ℕ) (values values' : List ℚ) (X_indptr : List ℕ)
    (X_values X_values' : List ℚ) (y_indices_base1 : List ℤ)
    (y_values : ℤ → ℚ) (y_length : ℕ)
    (h1 : ∀ i, i < indptr.length - 1 →
      indptr.getD i 0 < indptr.getD (i + 1) 0 →
      values.getD (indptr.getD i 0) 0 = values'.getD (indptr.getD i 0) 0)
    (h2 : ∀ i, i < X_indptr.length - 1 →
      X_indptr.getD i 0 < X_indptr.getD (i + 1) 0 →
      X_values.getD (X_indptr.getD i 0) 0 =
        X_values'.getD (X_indptr.getD i 0) 0) :
    matmul_colvec_by_scolvecascsr colvec indptr values =
        matmul_colvec_by_scolvecascsr colvec indptr values' ∧
      matmul_spcolvec_by_scolvecascsr X_indptr X_values y_indices_base1
          y_values y_length =
        matmul_spcolvec_by_scolvecascsr X_indptr X_values' y_indices_base1
          y_values y_length := by
  constructor
  · rw [matmul_colvec_by_scolvecascsr, matmul_colvec_by_scolvecascsr]
    have hfold :
        (List.range (indptr.length - 1)).foldl
            (cvStep colvec.length colvec indptr values) cvInit =
          (List.range (indptr.length - 1)).foldl
            (cvStep colvec.length colvec indptr values') cvInit := by
      apply List.foldl_ext
      intro st ix hix
      have hixlt : ix < indptr.length - 1 := List.mem_range.mp hix
      rw [cvStep, cvStep]
      by_cases hne : indptr.getD ix 0 < indptr.getD (ix + 1) 0
      · rw [if_pos hne, if_pos hne, h1 ix hixlt hne]
      · rw [if_neg hne, if_neg hne]
    rw [hfold]
  · rw [matmul_spcolvec_by_scolvecascsr, matmul_spcolvec_by_scolvecascsr]
    have hinner : ∀ yval st,
        (List.range (X_indptr.length - 1)).foldl
            (spInnerStep X_indptr X_values yval) st =
          (List.range (X_indptr.length - 1)).foldl
            (spInnerStep X_indptr X_values' yval) st := by
      intro yval st
      apply List.foldl_ext
      intro st' row hrow
      have hrlt : row < X_indptr.length - 1 := List.mem_range.mp hrow
      rw [spInnerStep, spInnerStep]
      by_cases hne : X_indptr.getD row 0 < X_indptr.getD (row + 1) 0
      · rw [if_pos hne, if_pos hne, h2 row hrlt hne]
      · rw [if_neg hne, if_neg hne]
    have hfold :
        (List.range y_indices_base1.length).foldl
            (spStep X_indptr X_values y_indices_base1 y_values
              (X_indptr.length - 1)) ⟨fun _ => 0, [], []⟩ =
          (List.range y_indices_base1.length).foldl
            (spStep X_indptr X_values' y_indices_base1 y_values
              (X_indptr.length - 1)) ⟨fun _ => 0, [], []⟩ := by
      apply List.foldl_ext
      intro st ix _
      rw [spStep, spStep, hinner]
    rw [hfold]

theorem kernels_read_only_first_row_value_witness :
    matmul_colvec_by_scolvecascsr [2, 3] [0, 2] [5, 999] =
        matmul_colvec_by_scolvecascsr [2, 3] [0, 2] [5, 0] ∧
      matmul_spcolvec_by_scolvecascsr [0, 2] [5, 999] [1]
          (fun _ => 4) 1 =
        matmul_spcolvec_by_scolvecascsr [0, 2] [5, 0] [1] (fun _ => 4) 1 :=
  kernels_read_only_first_row_value [2, 3] [0, 2] [5, 999] [5, 0] [0, 2]
    [5, 999] [5, 0] [1] (fun _ => 4) 1 (by decide) (by decide)

/-! ## Schedule invariance of the four nthreads kernels (claim C9)

Each kernel that takes a thread-count hint runs an OpenMP parallel-for
with dynamic scheduling over rows (gemm_csr_drm_as_drm line 132,
gemm_csr_drm_as_dcm line 166, matmul_csr_dvec line 398, matmul_csr_svec
line 505). At the granularity of whole-row updates, any thread count and
schedule realizes some permutation of the row set, each row's output
slice being written by exactly one thread; the per-thread scratch of
gemm_csr_drm_as_dcm starts with arbitrary contents that may differ
between threads and thread counts. The models below make the dispatch
order (and, for the dcm kernel, the scratch garbage) explicit, and the
claim theorem proves the outputs independent of both, and ties each
order-model back to the kernel embedding used elsewhere in this file. -/

/-- Row loop of gemm_csr_drm_as_dcm in an explicit dispatch order: the
same dcmStep as the kernel, folded over the given order. -/
def dcmRows (n : ℕ) (indptr indices : List ℕ) (values : List ℚ)
    (B : ℕ → ℚ) (ldb ldc : ℕ) (order : List ℕ)
    (st : (ℕ → ℚ) × (ℕ → ℚ)) : (ℕ → ℚ) × (ℕ → ℚ) :=
  order.foldl (dcmStep n indptr indices values B ldb ldc) st

/-- The scratch row contents of gemm_csr_drm_as_dcm after the memset over
ldb elements (line 179) and the accumulation of one row's nonzeros over n
elements (lines 180-181), starting from arbitrary prior contents scr. -/
def dcmScratch (n : ℕ) (indptr indices : List ℕ) (values : List ℚ)
    (B : ℕ → ℚ) (ldb : ℕ) (scr : ℕ → ℚ) (row : ℕ) : ℕ → ℚ :=
  (List.range' (indptr.getD row 0)
      (indptr.getD (row + 1) 0 - indptr.getD row 0)).foldl
    (fun sc c =>
      axpy1 n (values.getD c 0) B (indices.getD c 0 * ldb) sc 0)
    (fun j => if j < ldb then 0 else scr j)

/-- Per-row scalar of matmul_csr_dvec (lines 401-415): the accumulation
fold of one row, written once into the row's output slot. -/
def dvecRowVal (indptr indices : List ℕ) (values : List ℚ)
    (y : ℕ → Option ℤ) (row : ℕ) : Option ℚ :=
  (List.range' (indptr.getD row 0)
      (indptr.getD (row + 1) 0 - indptr.getD row 0)).foldl
    (fun val ix => naAdd val (dvecTerm values indices y ix)) (some 0)

/-- Row loop of matmul_csr_dvec in an explicit dispatch order: each row
writes its own output slot with its row value. -/
def dvecRowsUpd (indptr indices : List ℕ) (values : List ℚ)
    (y : ℕ → Option ℤ) (order : List ℕ) (out0 : ℕ → Option ℚ) :
    ℕ → Option ℚ :=
  order.foldl
    (fun acc row =>
      Function.update acc row (dvecRowVal indptr indices values y row))
    out0

/-- Per-row scalar of matmul_csr_svec (lines 510-548): the galloping
merge of the row segment with the sparse vector operand. -/
def svecRowVal (indptr : List ℕ) (indices : List ℤ) (values : List ℚ)
    (y_indices_base1 : List ℤ) (y_values : List ℚ) (row : ℕ) : ℚ :=
  svecGallop (csrRowPairs indptr indices values row)
    (y_indices_base1.zip y_values)

/-- Row loop of matmul_csr_svec in an explicit dispatch order: each row
writes its own output slot with its row value. -/
def svecRowsUpd (indptr : List ℕ) (indices : List ℤ) (values : List ℚ)
    (y_indices_base1 : List ℤ) (y_values : List ℚ) (order : List ℕ)
    (out0 : ℕ → ℚ) : ℕ → ℚ :=
  order.foldl
    (fun acc row =>
      Function.update acc row
        (svecRowVal indptr indices values y_indices_base1 y_values row))
    out0

theorem tcopyAt_apply_at (n : ℕ) (x : ℕ → ℚ) (incx : ℕ) (y : ℕ → ℚ)
    (yoff incy : ℕ) (ix : ℕ) (hix : ix < n) (hpos : 0 < incy) :
    tcopyAt n x incx y yoff incy (yoff + ix * incy) = x (ix * incx) := by
  induction n with
  | zero => omega
  | succ m ih =>
    have hstep :
        tcopyAt (m + 1) x incx y yoff incy =
          Function.update (tcopyAt m x incx y yoff incy) (yoff + m * incy)
            (x (m * incx)) := by
      simp [tcopyAt, List.range_succ]
    rw [hstep]
    by_cases hxm : ix = m
    · subst hxm
      rw [Function.update_same]
    · have hlt : ix < m := by omega
      have hmul : ix * incy < m * incy :=
        (Nat.mul_lt_mul_right hpos).mpr hlt
      rw [Function.update_noteq (by omega)]
      exact ih hlt

theorem dcmStep_eq_of_pos (n : ℕ) (indptr indices : List ℕ)
    (values : List ℚ) (B : ℕ → ℚ) (ldb ldc : ℕ)
    (st : (ℕ → ℚ) × (ℕ → ℚ)) (row : ℕ)
    (hne : indptr.getD row 0 < indptr.getD (row + 1) 0) :
    dcmStep n indptr indices values B ldb ldc st row =
      (tcopyAt n (dcmScratch n indptr indices values B ldb st.2 row) 1
          st.1 row ldc,
        dcmScratch n indptr indices values B ldb st.2 row) := by
  rw [dcmStep, if_pos hne]
  rfl

theorem dcmScratch_apply (n : ℕ) (indptr indices : List ℕ)
    (values : List ℚ) (B : ℕ → ℚ) (ldb : ℕ) (scr : ℕ → ℚ) (row j : ℕ)
    (hj : j < n) (hldb : n ≤ ldb) :
    dcmScratch n indptr indices values B ldb scr row j =
      drmRowSum indptr indices values B ldb row j := by
  rw [dcmScratch]
  rw [colFold_apply n (fun c => indices.getD c 0) (fun c => values.getD c 0)
    B ldb 0]
  rw [if_pos ⟨Nat.zero_le j, by omega⟩]
  rw [if_pos (by omega : j < ldb), zero_add, drmRowSum]
  simp

theorem dcmRows_fst_apply (n : ℕ) (indptr indices : List ℕ)
    (values : List ℚ) (B : ℕ → ℚ) (ldb ldc : ℕ) (order : List ℕ)
    (st : (ℕ → ℚ) × (ℕ → ℚ)) (p : ℕ)
    (hlt : ∀ r ∈ order, r < ldc) (hldb : n ≤ ldb) :
    (dcmRows n indptr indices values B ldb ldc order st).1 p =
      if p % ldc ∈ order ∧
          indptr.getD (p % ldc) 0 < indptr.getD (p % ldc + 1) 0 ∧
          p / ldc < n then
        drmRowSum indptr indices values B ldb (p % ldc) (p / ldc)
      else st.1 p := by
  induction order generalizing st with
  | nil =>
    rw [if_neg (by rintro ⟨h, -⟩; exact absurd h (List.not_mem_nil _))]
    rfl
  | cons r rest ih =>
    have hr : r < ldc := hlt r (List.mem_cons_self r rest)
    have hldc : 0 < ldc := by omega
    rw [show dcmRows n indptr indices values B ldb ldc (r :: rest) st =
        dcmRows n indptr indices values B ldb ldc rest
          (dcmStep n indptr indices values B ldb ldc st r) from rfl]
    rw [ih _ (fun r' hr' => hlt r' (List.mem_cons_of_mem r hr'))]
    by_cases hrest : p % ldc ∈ rest ∧
        indptr.getD (p % ldc) 0 < indptr.getD (p % ldc + 1) 0 ∧
        p / ldc < n
    · rw [if_pos hrest, if_pos ⟨List.mem_cons_of_mem r hrest.1, hrest.2⟩]
    · rw [if_neg hrest]
      by_cases hcons : p % ldc ∈ (r :: rest) ∧
          indptr.getD (p % ldc) 0 < indptr.getD (p % ldc + 1) 0 ∧
          p / ldc < n
      · rw [if_pos hcons]
        have hpr : p % ldc = r := by
          rcases List.mem_cons.mp hcons.1 with h | h
          · exact h
          · exact absurd ⟨h, hcons.2⟩ hrest
        have hne : indptr.getD r 0 < indptr.getD (r + 1) 0 := by
          rw [← hpr]
          exact hcons.2.1
        rw [dcmStep_eq_of_pos n indptr indices values B ldb ldc st r hne]
        show tcopyAt n (dcmScratch n indptr indices values B ldb st.2 r) 1
            st.1 r ldc p =
          drmRowSum indptr indices values B ldb (p % ldc) (p / ldc)
        have hdecomp : p = r + p / ldc * ldc := by
          have hdm := Nat.div_add_mod p ldc
          have hmc : ldc * (p / ldc) = p / ldc * ldc := Nat.mul_comm _ _
          omega
        have happ := tcopyAt_apply_at n
          (dcmScratch n indptr indices values B ldb st.2 r) 1 st.1 r ldc
          (p / ldc) hcons.2.2 hldc
        rw [← hdecomp] at happ
        rw [happ, mul_one,
          dcmScratch_apply n indptr indices values B ldb st.2 r (p / ldc)
            hcons.2.2 hldb, hpr]
      · rw [if_neg hcons]
        by_cases hne : indptr.getD r 0 < indptr.getD (r + 1) 0
        · rw [dcmStep_eq_of_pos n indptr indices values B ldb ldc st r hne]
          apply tcopyAt_apply_of_notin
          intro ix hix habs
          have hmod : p % ldc = r := by
            rw [habs, Nat.add_mul_mod_self_right]
            exact Nat.mod_eq_of_lt hr
          have hdiv : p / ldc = ix := by
            rw [habs, Nat.add_mul_div_right r ix hldc,
              Nat.div_eq_of_lt hr]
            omega
          exact hcons ⟨by rw [hmod]; exact List.mem_cons_self r rest,
            by rw [hmod]; exact hne, by rw [hdiv]; exact hix⟩
        · rw [dcmStep, if_neg hne]

theorem foldl_update_apply {α : Type} (f : ℕ → α) (order : List ℕ)
    (out0 : ℕ → α) (p : ℕ) :
    (order.foldl (fun acc r => Function.update acc r (f r)) out0) p =
      if p ∈ order then f p else out0 p := by
  induction order generalizing out0 with
  | nil => simp
  | cons r rest ih =>
    rw [List.foldl_cons, ih]
    by_cases hmem : p ∈ rest
    · rw [if_pos hmem, if_pos (List.mem_cons_of_mem r hmem)]
    · rw [if_neg hmem]
      by_cases hpr : p = r
      · subst hpr
        rw [Function.update_same, if_pos (List.mem_cons_self p rest)]
      · rw [Function.update_noteq hpr,
          if_neg (by
            rw [List.mem_cons]
            rintro (h | h)
            · exact hpr h
            · exact hmem h)]

/-- C9. Every kernel taking a thread-count hint produces a result that is
a deterministic function of its inputs alone: dispatching the rows in any
two orders (any permutation, covering every thread count and dynamic
schedule at whole-row granularity) yields identical outputs. For the two
gemm row loops this holds because each row's output slice is a pure
function of its row index; for gemm_csr_drm_as_dcm the result is moreover
independent of the arbitrary garbage the per-thread scratch buffers start
with (quantified as scr1, scr2), given the call-site facts that the
accumulated width does not exceed the memset width (n ≤ ldb) and rows fit
the output leading dimension; for matmul_csr_dvec and matmul_csr_svec
each row writes its own scalar slot with a value depending only on the
row. The final conjuncts tie each order-explicit loop to the kernel
embedding: the kernels run their loops in the order-model with order =
range m, so their outputs inherit the invariance. -/
theorem nthreads_kernels_schedule_invariant :
    (∀ (n : ℕ) (indptr indices : List ℕ) (values : List ℚ) (B : ℕ → ℚ)
        (ldb ldc : ℕ) (order1 order2 : List ℕ) (C : ℕ → ℚ),
      order1.Perm order2 →
      gemmRowsDrm n indptr indices values B ldb ldc order1 C =
        gemmRowsDrm n indptr indices values B ldb ldc order2 C) ∧
    (∀ (n : ℕ) (indptr indices : List ℕ) (values : List ℚ) (B : ℕ → ℚ)
        (ldb ldc : ℕ) (order1 order2 : List ℕ) (Out scr1 scr2 : ℕ → ℚ),
      order1.Perm order2 → (∀ r ∈ order1, r < ldc) → n ≤ ldb →
      (dcmRows n indptr indices values B ldb ldc order1 (Out, scr1)).1 =
        (dcmRows n indptr indices values B ldb ldc order2 (Out, scr2)).1) ∧
    (∀ (indptr indices : List ℕ) (values : List ℚ) (y : ℕ → Option ℤ)
        (order1 order2 : List ℕ) (out0 : ℕ → Option ℚ),
      order1.Perm order2 →
      dvecRowsUpd indptr indices values y order1 out0 =
        dvecRowsUpd indptr indices values y order2 out0) ∧
    (∀ (indptr : List ℕ) (indices : List ℤ) (values : List ℚ)
        (y_indices_base1 : List ℤ) (y_values : List ℚ)
        (order1 order2 : List ℕ) (out0 : ℕ → ℚ),
      order1.Perm order2 →
      svecRowsUpd indptr indices values y_indices_base1 y_values order1
          out0 =
        svecRowsUpd indptr indices values y_indices_base1 y_values order2
          out0) ∧
    (∀ (m n : ℕ) (indptr indices : List ℕ) (values : List ℚ) (B : ℕ → ℚ)
        (ldb : ℕ) (C : ℕ → ℚ) (ldc : ℕ),
      ¬(m = 0 ∨ indptr.getD 0 0 = indptr.getD m 0) →
      gemm_csr_drm_as_drm m n indptr indices values B ldb C ldc =
        gemmRowsDrm n indptr indices values B ldb ldc (List.range m) C) ∧
    (∀ (m n : ℕ) (indptr indices : List ℕ) (values : List ℚ) (B : ℕ → ℚ)
        (ldb : ℕ) (Out : ℕ → ℚ) (ldc : ℕ) (scr0 : ℕ → ℚ),
      ¬(m = 0 ∨ indptr.getD 0 0 = indptr.getD m 0) →
      gemm_csr_drm_as_dcm m n indptr indices values B ldb Out ldc scr0 =
        (dcmRows n indptr indices values B ldb ldc (List.range m)
          (Out, scr0)).1) ∧
    (∀ (nrows : ℕ) (indptr indices : List ℕ) (values : List ℚ)
        (y : ℕ → Option ℤ) (row : ℕ), row < nrows →
      (matmul_csr_dvec_int nrows indptr indices values y).getD row
          (some 0) =
        dvecRowVal indptr indices values y row) ∧
    (∀ (indptr : List ℕ) (indices : List ℤ) (values : List ℚ)
        (y_indices_base1 : List ℤ) (y_values : List ℚ) (row : ℕ),
      ¬y_indices_base1.isEmpty → row < indptr.length - 1 →
      (matmul_csr_svec indptr indices values y_indices_base1
          y_values).getD row 0 =
        svecRowVal indptr indices values y_indices_base1 y_values row) := by
  refine ⟨?_, ?_, ?_, ?_, ?_, ?_, ?_, ?_⟩
  · intro n indptr indices values B ldb ldc order1 order2 C hperm
    funext i
    rw [gemmRowsDrm_apply, gemmRowsDrm_apply]
    have hfilter := hperm.filter
      (fun r => decide (r * ldc ≤ i ∧ i < r * ldc + n))
    have hmap := hfilter.map
      (fun r => drmRowSum indptr indices values B ldb r (i - r * ldc))
    rw [hmap.sum_eq]
  · intro n indptr indices values B ldb ldc order1 order2 Out scr1 scr2
      hperm hlt hldb
    funext p
    rw [dcmRows_fst_apply n indptr indices values B ldb ldc order1 _ p
      hlt hldb]
    rw [dcmRows_fst_apply n indptr indices values B ldb ldc order2 _ p
      (fun r hr => hlt r (hperm.mem_iff.mpr hr)) hldb]
    have hmemiff : (p % ldc ∈ order1) ↔ (p % ldc ∈ order2) :=
      hperm.mem_iff
    by_cases hc : p % ldc ∈ order1 ∧
        indptr.getD (p % ldc) 0 < indptr.getD (p % ldc + 1) 0 ∧
        p / ldc < n
    · rw [if_pos hc, if_pos ⟨hmemiff.mp hc.1, hc.2⟩]
    · rw [if_neg hc, if_neg (fun hc2 => hc ⟨hmemiff.mpr hc2.1, hc2.2⟩)]
  · intro indptr indices values y order1 order2 out0 hperm
    funext p
    rw [dvecRowsUpd, dvecRowsUpd, foldl_update_apply, foldl_update_apply]
    by_cases hmem : p ∈ order1
    · rw [if_pos hmem, if_pos (hperm.mem_iff.mp hmem)]
    · rw [if_neg hmem, if_neg (fun h => hmem (hperm.mem_iff.mpr h))]
  · intro indptr indices values y_indices_base1 y_values order1 order2
      out0 hperm
    funext p
    rw [svecRowsUpd, svecRowsUpd, foldl_update_apply, foldl_update_apply]
    by_cases hmem : p ∈ order1
    · rw [if_pos hmem, if_pos (hperm.mem_iff.mp hmem)]
    · rw [if_neg hmem, if_neg (fun h => hmem (hperm.mem_iff.mpr h))]
  · intro m n indptr indices values B ldb C ldc hguard
    rw [gemm_csr_drm_as_drm, if_neg hguard]
  · intro m n indptr indices values B ldb Out ldc scr0 hguard
    rw [gemm_csr_drm_as_dcm, if_neg hguard]
    rfl
  · intro nrows indptr indices values y row hrow
    rw [matmul_csr_dvec_int, List.getD_eq_getElem?_getD,
      List.getElem?_map, List.getElem?_range hrow]
    rfl
  · intro indptr indices values y_indices_base1 y_values row hempty hrow
    rw [matmul_csr_svec, if_neg hempty]
    rw [List.getD_eq_getElem?_getD, List.getElem?_map,
      List.getElem?_range hrow]
    rfl

theorem nthreads_kernels_schedule_invariant_witness :
    gemmRowsDrm 2 [0, 1, 2] [1, 0] [2, 3] (fun i => (i : ℚ)) 2 2 [1, 0]
        (fun _ => 0) =
      gemmRowsDrm 2 [0, 1, 2] [1, 0] [2, 3] (fun i => (i : ℚ)) 2 2 [0, 1]
        (fun _ => 0) ∧
    (dcmRows 1 [0, 1, 2] [0, 0] [2, 3] (fun i => (i : ℚ)) 1 2 [1, 0]
        (fun _ => 0, fun _ => 9)).1 =
      (dcmRows 1 [0, 1, 2] [0, 0] [2, 3] (fun i => (i : ℚ)) 1 2 [0, 1]
        (fun _ => 0, fun _ => 0)).1 ∧
    dvecRowsUpd [0, 1, 2] [0, 0] [2, 3] (fun _ => some 1) [1, 0]
        (fun _ => some 0) =
      dvecRowsUpd [0, 1, 2] [0, 0] [2, 3] (fun _ => some 1) [0, 1]
        (fun _ => some 0) ∧
    svecRowsUpd [0, 1, 2] [0, 0] [2, 3] [1] [5] [1, 0] (fun _ => 0) =
      svecRowsUpd [0, 1, 2] [0, 0] [2, 3] [1] [5] [0, 1] (fun _ => 0) :=
  ⟨nthreads_kernels_schedule_invariant.1 2 [0, 1, 2] [1, 0] [2, 3]
      (fun i => (i : ℚ)) 2 2 [1, 0] [0, 1] (fun _ => 0) (by decide),
    nthreads_kernels_schedule_invariant.2.1 1 [0, 1, 2] [0, 0] [2, 3]
      (fun i => (i : ℚ)) 1 2 [1, 0] [0, 1] (fun _ => 0) (fun _ => 9)
      (fun _ => 0) (by decide) (by decide) (by decide),
    nthreads_kernels_schedule_invariant.2.2.1 [0, 1, 2] [0, 0] [2, 3]
      (fun _ => some 1) [1, 0] [0, 1] (fun _ => some 0) (by decide),
    nthreads_kernels_schedule_invariant.2.2.2.1 [0, 1, 2] [0, 0] [2, 3]
      [1] [5] [1, 0] [0, 1] (fun _ => 0) (by decide)⟩
